import Mathlib

/-!
Verification of the oke repository: the nondeterministic tokenizer
(`src/nondet-tokenizer`) and the grammar compiler (`src/grammar`),
shallowly embedded from the TypeScript source.

Modelling conventions:
* Strings are `List Char` (one entry per code point).
* JS numbers that feed control decisions are `ℚ`; `Math.random` is modelled
  as an ambient stream of rationals passed as an explicit parameter, and the
  seeded mulberry32 generator is modelled exactly over `Nat` arithmetic
  modulo `2 ^ 32` (JS bitwise operators, `>>> 0` and `Math.imul` all act on
  values modulo `2 ^ 32`).
* JS `Map` objects are association lists: `set` overwrites in place for an
  existing key and appends for a new key, which preserves the iteration
  (insertion) order exactly as the JS `Map` does.
-/

namespace Oke

/-- Vocabulary record (`TokenizerVocabulary` in `mod.ts`); the `merges` and
`model_type` fields are never read by the tokenizer and are omitted. -/
structure Vocab where
  tokens : List (List Char)
  bos_token_id : Option Nat := none
  eos_token_id : Option Nat := none
  special_token_ids : Option (List Nat) := none

/-- A node of the token trie (`TrieNode`): token ids ending at this
node plus children keyed by the next character. -/
inductive Trie where
  | node (tokenIds : List Nat) (children : List (Char × Trie))

def Trie.tokenIds : Trie → List Nat
  | .node ids _ => ids

def Trie.children : Trie → List (Char × Trie)
  | .node _ ch => ch

/-- `Map.get` on the children map. -/
def findChild (c : Char) : List (Char × Trie) → Option Trie
  | [] => none
  | (c', t) :: rest => if c' = c then some t else findChild c rest

/-- `Map.set` on the children map: overwrite in place, or append a new key. -/
def updChild (c : Char) (t : Trie) : List (Char × Trie) → List (Char × Trie)
  | [] => [(c, t)]
  | (c', t') :: rest => if c' = c then (c, t) :: rest else (c', t') :: updChild c t rest

/-- Insert one token string with its id into the trie (inner loop of
`buildTrie`): walk the path of characters, creating missing nodes, and push
the id at the final node. -/
def insertToken : List Char → Nat → Trie → Trie
  | [], id, .node ids ch => .node (ids ++ [id]) ch
  | c :: cs, id, .node ids ch =>
      let child := (findChild c ch).getD (.node [] [])
      .node ids (updChild c (insertToken cs id child) ch)

/-- The `for (let tokenId = 0; ...)` loop of `buildTrie`. -/
def buildTrieAux : List (List Char) → Nat → Trie → Trie
  | [], _, t => t
  | s :: rest, i, t => buildTrieAux rest (i + 1) (insertToken s i t)

/-- `NondeterministicTokenizer.buildTrie`. -/
def buildTrie (tokens : List (List Char)) : Trie :=
  buildTrieAux tokens 0 (.node [] [])

/-- One candidate returned by `findValidTokens`:
`{ id, length, text }`. -/
structure Cand where
  id : Nat
  length : Nat
  text : List Char
deriving DecidableEq, Repr

/-- Trie walk of `findValidTokens`, over the text suffix starting at the
start position; `acc` is the prefix matched so far (so `acc.length` plays
the role of `pos - startPos` and `acc ++ [c]` of the matched substring). -/
def findValidTokensAux : Trie → List Char → List Char → List Cand
  | _, _, [] => []
  | t, acc, c :: rest =>
      match findChild c t.children with
      | none => []
      | some child =>
          let acc2 := acc ++ [c]
          child.tokenIds.map (fun id => { id := id, length := acc2.length, text := acc2 })
            ++ findValidTokensAux child acc2 rest

/-- `NondeterministicTokenizer.findValidTokens(text, startPos)`. -/
def findValidTokens (trie : Trie) (text : List Char) (startPos : Nat) : List Cand :=
  findValidTokensAux trie [] (text.drop startPos)

/-- One step of the mulberry32 generator (`SeededRandom.next`): the 32-bit
output and the updated state.  All the JS coercions (`>>> 0`, `ToInt32`
before bitwise operators, `Math.imul`) are congruences modulo `2 ^ 32`, so
the step is computed in `Nat` with explicit `% 4294967296`. -/
def mb32 (state : Nat) : Nat × Nat :=
  let s := (state + 0x6D2B79F5) % 4294967296
  let t1 := ((s ^^^ (s >>> 15)) * (s ||| 1)) % 4294967296
  let t2 := t1 ^^^ ((t1 + ((t1 ^^^ (t1 >>> 7)) * (t1 ||| 61)) % 4294967296) % 4294967296)
  (t2 ^^^ (t2 >>> 14), s)

/-- The random source of one `tokenize` call: a mulberry32 state when a seed
was supplied (`new SeededRandom(seed)`), otherwise the ambient `Math.random`
stream. -/
inductive Rng where
  | seeded (state : Nat)
  | ambient (stream : Nat → ℚ)

/-- `rng.next()` / `Math.random()`: a rational in `[0, 1)` plus the successor
source.  The seeded value is `u / 2^32` for the 32-bit output `u`. -/
def Rng.next : Rng → ℚ × Rng
  | .seeded st =>
      let p := mb32 st
      ((p.1 : ℚ) / 4294967296, .seeded p.2)
  | .ambient f => (f 0, .ambient fun n => f (n + 1))

/-- `rng.nextInt(max)` resp. `Math.floor(Math.random() * max)`.  For the
seeded source `Math.floor((u / 2^32) * max)` is exactly `u * max / 2^32` in
natural division. -/
def Rng.nextInt : Rng → Nat → Nat × Rng
  | .seeded st, m =>
      let p := mb32 st
      (p.1 * m / 4294967296, .seeded p.2)
  | .ambient f, m => (Int.toNat (Int.floor (f 0 * (m : ℚ))), .ambient fun n => f (n + 1))

/-- An ambient `Math.random` stream only produces values in `[0, 1)`. -/
def ValidStream (f : Nat → ℚ) : Prop := ∀ n, 0 ≤ f n ∧ f n < 1

/-- Validity of a random source: always true for the seeded generator, the
`Math.random` contract for an ambient stream. -/
def Rng.Valid : Rng → Prop
  | .seeded _ => True
  | .ambient f => ValidStream f

/-- Selection strategy (`TokenizeOptions.strategy`); `idealLength` is the
`"ideal-length"` strategy. -/
inductive Strategy where
  | random | shortest | longest | idealLength
deriving DecidableEq, Repr

/-- `TokenizeOptions`.  Optional fields are `Option`s; `addBosToken` and
`addEosToken` are only ever tested for truthiness so an absent field and
`false` coincide. -/
structure TokenizeOptions where
  strategy : Option Strategy := none
  idealLength : Option Nat := none
  seed : Option Nat := none
  addBosToken : Bool := false
  addEosToken : Bool := false
  preserveSpecialTokens : Option Bool := none

/-- `Math.min(...validTokens.map(t => t.length))` over the nonempty
candidate list `c :: cs`. -/
def minLenOf (c : Cand) (cs : List Cand) : Nat :=
  cs.foldl (fun m t => min m t.length) c.length

/-- `Math.max(...validTokens.map(t => t.length))` over `c :: cs`. -/
def maxLenOf (c : Cand) (cs : List Cand) : Nat :=
  cs.foldl (fun m t => max m t.length) c.length

/-- The cumulative-weight walk of the `"ideal-length"` case: weights are
consumed in candidate order, each contributing `w / total` to the running
sum; the first index whose running sum exceeds the draw is selected. -/
def pickIdx (q total : ℚ) : List ℚ → ℚ → Option Nat
  | [], _ => none
  | w :: ws, cum =>
      let cum2 := cum + w / total
      if q < cum2 then some 0 else (pickIdx q total ws cum2).map (· + 1)

/-- The strategy `switch` of `tokenize`: select one candidate from the
nonempty list `c :: cs` and return it with the advanced random source.
Out-of-range indices (impossible for a valid source) fall back to the head
`c`; the `"ideal-length"` case falls back to the last candidate exactly as
the source's `if (!selectedToken)` does. -/
def selectTok (strat : Strategy) (ideal : Nat) (c : Cand) (cs : List Cand) (rng : Rng) :
    Cand × Rng :=
  match strat with
  | .shortest =>
      let m := minLenOf c cs
      let sh := (c :: cs).filter (fun t => t.length == m)
      let p := rng.nextInt sh.length
      (sh.getD p.1 c, p.2)
  | .longest =>
      let m := maxLenOf c cs
      let lg := (c :: cs).filter (fun t => t.length == m)
      let p := rng.nextInt lg.length
      (lg.getD p.1 c, p.2)
  | .idealLength =>
      let ws := (c :: cs).map (fun t => 1 / (1 + |(t.length : ℚ) - (ideal : ℚ)|))
      let total := ws.foldl (· + ·) 0
      let p := rng.next
      (match pickIdx p.1 total ws 0 with
       | some i => (c :: cs).getD i c
       | none => cs.getLastD c, p.2)
  | .random =>
      let p := rng.nextInt (c :: cs).length
      ((c :: cs).getD p.1 c, p.2)

/-- One special-token occurrence, `{ start, end, tokenId }` (the `end` field
is called `endPos` since `end` is reserved in Lean). -/
structure SpecialMatch where
  start : Nat
  endPos : Nat
  tokenId : Nat
deriving DecidableEq, Repr

/-- `text.indexOf(pat, start)`: the least position `i ≥ start` where `pat`
occurs in `text`. -/
def strIndexOfFrom (text pat : List Char) (start : Nat) : Option Nat :=
  (List.range (text.length + 1)).find?
    (fun i => decide (start ≤ i) && pat.isPrefixOf (text.drop i))

/-- The `while ((pos = text.indexOf(tokenText, pos)) !== -1)` scan of
`findSpecialTokens` for one special token: leftmost matches, non-overlapping
for this token because the cursor jumps past each match.  The loop runs at
most `text.length + 1` times (the cursor strictly increases and is bounded
by the text length), which the explicit fuel argument accounts for. -/
def scanFrom (text pat : List Char) (id : Nat) : Nat → Nat → List SpecialMatch
  | 0, _ => []
  | fuel + 1, pos =>
      match strIndexOfFrom text pat pos with
      | none => []
      | some i =>
          { start := i, endPos := i + pat.length, tokenId := id }
            :: scanFrom text pat id fuel (i + pat.length)

/-- Comparison used by `matches.sort((a, b) => a.start - b.start)`. -/
def matchLE (a b : SpecialMatch) : Prop := a.start ≤ b.start

instance : DecidableRel matchLE := fun a b => Nat.decLe a.start b.start

/-- `NondeterministicTokenizer.findSpecialTokens`: scan every entry of the
special-token map in insertion order, then sort the merged matches by start
position.  `Array.prototype.sort` is a stable sort, so the model uses the
(stable) insertion sort with the same comparison. -/
def findSpecialTokens (specialMap : List (List Char × Nat)) (text : List Char) :
    List SpecialMatch :=
  (((specialMap.map fun p => scanFrom text p.1 p.2 (text.length + 1) 0).flatten).insertionSort
    matchLE)

/-- `map.set(tokenText, tokenId)` on the special-token map. -/
def mapSet (m : List (List Char × Nat)) (k : List Char) (v : Nat) :
    List (List Char × Nat) :=
  match m with
  | [] => [(k, v)]
  | (k', v') :: rest => if k' = k then (k, v) :: rest else (k', v') :: mapSet rest k v

/-- One conditional insertion of `buildSpecialTokenMap`: look the id up in
the vocabulary and register its text unless the lookup misses or the text is
empty (both are falsy `if (tokenText)` checks). -/
def setIfPresent (toks : List (List Char)) (m : List (List Char × Nat)) (id : Nat) :
    List (List Char × Nat) :=
  match toks.get? id with
  | some t => if t = [] then m else mapSet m t id
  | none => m

/-- `NondeterministicTokenizer.buildSpecialTokenMap`: the declared special
ids first, then BOS, then EOS. -/
def buildSpecialTokenMap (v : Vocab) : List (List Char × Nat) :=
  let m1 := (v.special_token_ids.getD []).foldl (setIfPresent v.tokens) []
  let m2 := match v.bos_token_id with
    | some i => setIfPresent v.tokens m1 i
    | none => m1
  match v.eos_token_id with
  | some i => setIfPresent v.tokens m2 i
  | none => m2

/-- A segment of the input text: a normal span to be trie-tokenized, or a
special-token span emitted verbatim. -/
inductive Segment where
  | normal (start stop : Nat)
  | special (start stop : Nat) (tokenId : Nat)
deriving DecidableEq, Repr

/-- The special-token data of a segment, if it is a special segment. -/
def Segment.specialData : Segment → Option SpecialMatch
  | .special s e id => some { start := s, endPos := e, tokenId := id }
  | .normal _ _ => none

/-- The `for (const special of specialTokenPositions)` interleaving loop of
`tokenize`: a normal segment for any text before the match (only when
`lastPos < special.start`), the special segment itself (unconditionally —
there is no check that the match starts at or after `lastPos`), then the
loop continues from the match's end; a trailing normal segment covers any
remaining text. -/
def interleaveSegs (len : Nat) : Nat → List SpecialMatch → List Segment
  | lastPos, [] => if lastPos < len then [.normal lastPos len] else []
  | lastPos, m :: rest =>
      (if lastPos < m.start then [.normal lastPos m.start] else [])
        ++ .special m.start m.endPos m.tokenId :: interleaveSegs len m.endPos rest

/-- Segment construction of `tokenize`: the whole text as one normal segment
when there are no special matches, otherwise the interleaving loop. -/
def buildSegments (len : Nat) (ms : List SpecialMatch) : List Segment :=
  match ms with
  | [] => [.normal 0 len]
  | _ => interleaveSegs len 0 ms

/-- The per-segment `while (pos < segmentText.length)` loop of `tokenize`,
over the remaining suffix of the segment text.  When no candidate exists the
position advances by one without emitting a token (the recoverable
no-coverage branch); otherwise the strategy selects a candidate, its id is
emitted and the position advances by its matched length.  Every iteration
advances the position by at least one, so fuel `segText.length` (supplied by
`tokLoop`) always suffices. -/
def tokLoopF (trie : Trie) (strat : Strategy) (ideal : Nat) :
    Nat → List Char → Rng → List Nat × Rng
  | 0, _, rng => ([], rng)
  | _, [], rng => ([], rng)
  | fuel + 1, c :: rest, rng =>
      match findValidTokensAux trie [] (c :: rest) with
      | [] => tokLoopF trie strat ideal fuel rest rng
      | c0 :: cands =>
          let p := selectTok strat ideal c0 cands rng
          let q := tokLoopF trie strat ideal fuel ((c :: rest).drop p.1.length) p.2
          (p.1.id :: q.1, q.2)

/-- The per-segment tokenization loop on a segment text. -/
def tokLoop (trie : Trie) (strat : Strategy) (ideal : Nat) (l : List Char) (rng : Rng) :
    List Nat × Rng :=
  tokLoopF trie strat ideal l.length l rng

/-- The `for (const segment of segments)` loop of `tokenize`: special
segments push their token id directly; normal segments run the per-segment
loop on `text.substring(start, end)`, threading the random source. -/
def tokenizeSegs (trie : Trie) (strat : Strategy) (ideal : Nat) (text : List Char) :
    List Segment → Rng → List Nat × Rng
  | [], rng => ([], rng)
  | .special _ _ id :: rest, rng =>
      let p := tokenizeSegs trie strat ideal text rest rng
      (id :: p.1, p.2)
  | .normal a b :: rest, rng =>
      let segText := (text.drop a).take (b - a)
      let p := tokLoop trie strat ideal segText rng
      let q := tokenizeSegs trie strat ideal text rest p.2
      (p.1 ++ q.1, q.2)

/-- `NondeterministicTokenizer.tokenize(text, options)`.  The string-typed
strategy overload is `{ strategy := some s }`.  `amb` is the ambient
`Math.random` stream, used only when no seed is supplied.  Defaults mirror
the source: `strategy || "random"`, `idealLength || 4` (so an explicit `0`
also falls back to `4`), `preserveSpecialTokens ?? true`, and
`seed >>> 0` for the generator state. -/
def tokenize (v : Vocab) (text : List Char) (opts : TokenizeOptions) (amb : Nat → ℚ) :
    List Nat :=
  let trie := buildTrie v.tokens
  let strat := opts.strategy.getD .random
  let ideal := match opts.idealLength with
    | some n => if n = 0 then 4 else n
    | none => 4
  let rng : Rng := match opts.seed with
    | some s => .seeded (s % 4294967296)
    | none => .ambient amb
  let preserve := opts.preserveSpecialTokens.getD true
  let bosList := if opts.addBosToken then
      match v.bos_token_id with
      | some i => [i]
      | none => []
    else []
  let sp := if preserve then findSpecialTokens (buildSpecialTokenMap v) text else []
  let segs := buildSegments text.length sp
  let body := tokenizeSegs trie strat ideal text segs rng
  let eosList := if opts.addEosToken then
      match v.eos_token_id with
      | some i => [i]
      | none => []
    else []
  bosList ++ body.1 ++ eosList

/-- `NondeterministicTokenizer.detokenize`: ids outside the vocabulary
contribute the empty string (`this.vocabulary.tokens[id] || ""`). -/
def detokenize (v : Vocab) (ids : List Nat) : List Char :=
  (ids.map fun id => (v.tokens.get? id).getD []).flatten

/-- `NondeterministicTokenizer.getToken`. -/
def getToken (v : Vocab) (id : Nat) : Option (List Char) :=
  v.tokens.get? id

/-- `NondeterministicTokenizer.vocabSize`. -/
def vocabSize (v : Vocab) : Nat := v.tokens.length

/-! ### Compression utilities (`compression.ts`) -/

/-- `CompressionResult`.  The two derived rational fields model the JS float
divisions; a zero token count yields `0` here where JS yields
`Infinity`/`NaN` (no claim depends on them). -/
structure CompressionResult where
  text : List Char
  tokens : List Nat
  tokenStrings : List (List Char)
  tokenCount : Nat
  charCount : Nat
  charsPerToken : ℚ
  avgTokenLength : ℚ
deriving Repr

/-- The common result assembly shared by `compress`, `compressWithFactor`
and the `leastCompressed` record of `compareCompression`. -/
def mkCompressionResult (v : Vocab) (text : List Char) (toks : List Nat) :
    CompressionResult :=
  let tokenStrings := toks.map fun id => (v.tokens.get? id).getD []
  { text := text
    tokens := toks
    tokenStrings := tokenStrings
    tokenCount := toks.length
    charCount := text.length
    charsPerToken := (text.length : ℚ) / (toks.length : ℚ)
    avgTokenLength :=
      ((tokenStrings.foldl (fun s t => s + t.length) 0 : Nat) : ℚ) / (toks.length : ℚ) }

/-- `compress`: tokenize with the `"longest"` strategy forced by spread
(`{ ...options, strategy: "longest" }`). -/
def compress (v : Vocab) (text : List Char) (opts : TokenizeOptions) (amb : Nat → ℚ) :
    CompressionResult :=
  mkCompressionResult v text (tokenize v text { opts with strategy := some .longest } amb)

/-- `CompressionComparison`. -/
structure CompressionComparison where
  text : List Char
  mostCompressed : CompressionResult
  leastCompressed : CompressionResult
  improvementFactor : ℚ
deriving Repr

/-- `compareCompression`: the longest-strategy result against the
shortest-strategy result.  Both inner calls are unseeded, so each consumes
the ambient `Math.random` source; the two successive states of that source
are the two stream parameters. -/
def compareCompression (v : Vocab) (text : List Char) (amb1 amb2 : Nat → ℚ) :
    CompressionComparison :=
  let most := compress v text {} amb1
  let leastTokens := tokenize v text { strategy := some .shortest } amb2
  let least := mkCompressionResult v text leastTokens
  { text := text
    mostCompressed := most
    leastCompressed := least
    improvementFactor := (least.tokenCount : ℚ) / (most.tokenCount : ℚ) }

/-- `Math.round`: round half toward positive infinity. -/
def jsRound (q : ℚ) : ℤ := Int.floor (q + 1 / 2)

/-- The sampling loop of `compressWithFactor`: fold over the first
`Math.min(1000, vocabSize)` tokens, skipping falsy (missing or empty)
tokens, starting from `minTokenLen = maxTokenLen = 1`. -/
def sampleLenRange (toks : List (List Char)) : Nat × Nat :=
  (toks.take (min 1000 toks.length)).foldl
    (fun p t => if t = [] then p else (min p.1 t.length, max p.2 t.length)) (1, 1)

/-- `compressWithFactor`: clamp the factor to `[0, 1]`, interpolate the
ideal length between the sampled minimum and maximum token lengths, and
delegate to the `"ideal-length"` strategy. -/
def compressWithFactor (v : Vocab) (text : List Char) (cf : ℚ) (opts : TokenizeOptions)
    (amb : Nat → ℚ) : CompressionResult :=
  let factor := max 0 (min 1 cf)
  let r := sampleLenRange v.tokens
  let il : Nat := (jsRound ((r.1 : ℚ) + factor * ((r.2 : ℚ) - (r.1 : ℚ)))).toNat
  mkCompressionResult v text
    (tokenize v text { opts with strategy := some .idealLength, idealLength := some il } amb)

/-- The trie has a path spelling `p` ending at a node that holds id `i`. -/
def Trie.hasPath : Trie → List Char → Nat → Prop
  | t, [], i => i ∈ t.tokenIds
  | t, c :: cs, i => ∃ child, findChild c t.children = some child ∧ child.hasPath cs i

/-- Character coverage: every character of `l` is a one-character token. -/
def Covered (toks : List (List Char)) (l : List Char) : Prop :=
  ∀ ch ∈ l, ∃ i, toks.get? i = some [ch]

/-- The properties of a reported special-token match that the segmentation
relies on: its span is inside the text, and the matched span is exactly the
vocabulary text of its token id. -/
def MatchOK (v : Vocab) (text : List Char) (m : SpecialMatch) : Prop :=
  m.start ≤ m.endPos ∧ m.endPos ≤ text.length ∧
    v.tokens.get? m.tokenId = some ((text.drop m.start).take (m.endPos - m.start))

/-! ### Concrete instances used by the claims -/

/-- The vocabulary `{a, b, ab}` of the strategy-correctness property. -/
def vocabStrat : Vocab := { tokens := [['a'], ['b'], ['a', 'b']] }

/-- A vocabulary whose two special tokens `"ab"` and `"bc"` produce
overlapping matches on the text `"abc"`; every character also has a
one-character token. -/
def overlapVocab : Vocab :=
  { tokens := [['a', 'b'], ['b', 'c'], ['a'], ['b'], ['c']]
    special_token_ids := some [0, 1] }

/-- A vocabulary with the special token `"<s>"` and one-character tokens for
every character of `"a<s>b"`. -/
def rtVocab : Vocab :=
  { tokens := [['a'], ['b'], ['<'], ['s'], ['>'], ['<', 's', '>']]
    special_token_ids := some [5] }

/-- A fixed, trivially valid ambient stream used in witnesses. -/
def zeroStream : Nat → ℚ := fun _ => 0

end Oke

/-! ### Grammar compiler, ts-pattern version (`src/grammar`, current listing)

The TS `Rule` union includes bare strings; the `str` constructor plays that
role, and `stringify` quotes it exactly as the `P.string` case does (the
inline `typeof e === "string"` checks inside the sequence/choice cases
produce the same quoting, so mapping `stringify` over the members is the
same function). -/

namespace GrammarTP

inductive Rule where
  | sequence (rules : List Rule)
  | choice (rules : List Rule)
  | «repeat» (rule : Rule) (min max : Int)
  | repeat0 (rule : Rule)
  | repeat1 (rule : Rule)
  | «optional» (rule : Rule)
  | range (range : String)
  | named (name : String)
  | str (s : String)

mutual

/-- `stringify` (ts-pattern version). -/
def stringify : Rule → String
  | .sequence rules => String.intercalate " " (stringifyList rules)
  | .choice rules => "(" ++ String.intercalate " | " (stringifyList rules) ++ ")"
  | .«repeat» r mn mx => stringify r ++ "\x7b" ++ toString mn ++ "," ++ toString mx ++ "\x7d"
  | .repeat0 r => stringify r ++ "*"
  | .repeat1 r => stringify r ++ "+"
  | .«optional» r => stringify r ++ "?"
  | .range s => "[" ++ s ++ "]"
  | .named n => n
  | .str s => "\"" ++ s ++ "\""

def stringifyList : List Rule → List String
  | [] => []
  | r :: rs => stringify r :: stringifyList rs

end

/-- A grammar entry: a literal rule value (strings are `Rule.str`) or a
function of the self-reference proxy. -/
inductive RuleDef where
  | plain (r : Rule)
  | fn (f : (String → Rule) → Rule)

inductive CompileMode where
  | normal | inline
deriving DecidableEq

/-- Compiler options.  The source's `prefix` field is called `pfx` (`prefix`
is reserved in Lean). -/
structure GrammarOptions where
  compileMode : Option CompileMode := none
  pfx : Option String := none

def lookupDef (rules : List (String × RuleDef)) (name : String) : Option RuleDef :=
  (rules.find? fun p => p.1 == name).map (·.2)

/-- The proxy object handed to rule functions.  In normal mode every key
maps to a bare `Named` reference built from the unprefixed key; in inline
mode the proxy is the rule mapping itself (for a type-correct grammar every
accessed entry is a plain rule; a function-valued entry has no Rule value in
TS either and is left as a dangling `Named` here). -/
def mkProxy (rules : List (String × RuleDef)) (opts : GrammarOptions) : String → Rule :=
  if opts.compileMode = some .inline then
    fun name =>
      match lookupDef rules name with
      | some (.plain r) => r
      | _ => .named name
  else
    fun name => .named name

def resolveDef (d : RuleDef) (proxy : String → Rule) : Rule :=
  match d with
  | .plain r => r
  | .fn f => f proxy

/-- `grammar(rules, options)`: one production per entry in insertion order,
`name ::= body`, joined by newlines.  A truthy (non-empty) `prefix` is
prepended as `prefix + "-"` to the production name only — the proxy passes
unprefixed names into `Named` references. -/
def grammar (rules : List (String × RuleDef)) (opts : GrammarOptions) : String :=
  let proxy := mkProxy rules opts
  String.intercalate "\n" (rules.map fun p =>
    (match opts.pfx with
     | some s => if s = "" then p.1 else s ++ "-" ++ p.1
     | none => p.1) ++ " ::= " ++ stringify (resolveDef p.2 proxy))

end GrammarTP

/-! ### Grammar compiler, Enum version (`src/grammar`, earlier listing) -/

namespace GrammarEnum

/-- The Enum-helper `Rule` variant record: `Repeat` carries optional bounds,
`Range` is either a min/max pair or an explicit character list; bare strings
are `str`. -/
inductive ERule where
  | Sequence (rules : List ERule)
  | Choice (rules : List ERule)
  | Repeat (rule : ERule) (min max : Option Int)
  | Optional (rule : ERule)
  | RangeMinMax (min max : String)
  | RangeList (chars : List String)
  | Named (name : String)
  | str (s : String)

mutual

/-- `stringify` (Enum version).  The `Repeat` case parenthesizes the inner
rule and substitutes `"0"` / `"7"` for falsy bounds (`$.min || "0"`,
`$.max || "7"` — so a `0` maximum also renders as `"7"`). -/
def stringify : ERule → String
  | .str s => "\"" ++ s ++ "\""
  | .Sequence rules => String.intercalate " " (stringifyList rules)
  | .Choice rules => "(" ++ String.intercalate " | " (stringifyList rules) ++ ")"
  | .Repeat r mn mx =>
      "(" ++ stringify r ++ ")\x7b"
        ++ (match mn with
            | some m => if m = 0 then "0" else toString m
            | none => "0")
        ++ ","
        ++ (match mx with
            | some m => if m = 0 then "7" else toString m
            | none => "7")
        ++ "\x7d"
  | .Optional r => stringify r ++ "?"
  | .RangeMinMax a b => "[" ++ a ++ "-" ++ b ++ "]"
  | .RangeList cs => "[" ++ String.intercalate "" cs ++ "]"
  | .Named n => n

def stringifyList : List ERule → List String
  | [] => []
  | r :: rs => stringify r :: stringifyList rs

end

end GrammarEnum

namespace Oke

/-! ### Basic lemmas about list helpers and the random source -/

theorem List.getD_mem_or {α : Type _} (l : List α) (i : Nat) (d : α) :
    l.getD i d ∈ l ∨ l.getD i d = d := by
  induction l generalizing i with
  | nil => right; simp [List.getD]
  | cons a t ih =>
      cases i with
      | zero => left; simp [List.getD]
      | succ j =>
          rcases ih j with h | h
          · left
            simp only [List.getD_cons_succ]
            exact List.mem_cons_of_mem a h
          · right
            simpa [List.getD_cons_succ] using h

theorem List.getD_mem_of_lt {α : Type _} {l : List α} {i : Nat} (d : α)
    (h : i < l.length) : l.getD i d ∈ l := by
  induction l generalizing i with
  | nil => simp at h
  | cons a t ih =>
      cases i with
      | zero => simp [List.getD]
      | succ j =>
          have hj : j < t.length := by simpa using Nat.lt_of_succ_lt_succ h
          have := ih hj
          simp only [List.getD_cons_succ]
          exact List.mem_cons_of_mem a this

theorem List.getLastD_mem {α : Type _} (c : α) (cs : List α) :
    cs.getLastD c ∈ c :: cs := by
  induction cs generalizing c with
  | nil => simp [List.getLastD]
  | cons a t ih =>
      have h := ih a
      simp only [List.getLastD_cons]
      rcases List.mem_cons.mp h with h | h
      · rw [h]; simp
      · exact List.mem_cons_of_mem c (List.mem_cons_of_mem a h)

theorem mb32_fst_lt (st : Nat) : (mb32 st).1 < 4294967296 := by
  have h32 : (4294967296 : Nat) = 2 ^ 32 := by norm_num
  unfold mb32
  simp only []
  set s := (st + 0x6D2B79F5) % 4294967296 with hs
  set t1 := ((s ^^^ (s >>> 15)) * (s ||| 1)) % 4294967296 with ht1
  have h1 : t1 < 2 ^ 32 := by rw [← h32]; exact Nat.mod_lt _ (by norm_num)
  have h2 : (t1 + ((t1 ^^^ (t1 >>> 7)) * (t1 ||| 61)) % 4294967296) % 4294967296 < 2 ^ 32 := by
    rw [← h32]; exact Nat.mod_lt _ (by norm_num)
  have h3 : t1 ^^^ ((t1 + ((t1 ^^^ (t1 >>> 7)) * (t1 ||| 61)) % 4294967296) % 4294967296)
      < 2 ^ 32 := Nat.xor_lt_two_pow h1 h2
  have h4 : (t1 ^^^ ((t1 + ((t1 ^^^ (t1 >>> 7)) * (t1 ||| 61)) % 4294967296) % 4294967296)) >>> 14
      < 2 ^ 32 := by
    calc _ ≤ t1 ^^^ ((t1 + ((t1 ^^^ (t1 >>> 7)) * (t1 ||| 61)) % 4294967296) % 4294967296) := by
            rw [Nat.shiftRight_eq_div_pow]; exact Nat.div_le_self _ _
      _ < 2 ^ 32 := h3
  rw [h32]
  exact Nat.xor_lt_two_pow h3 h4

theorem Rng.nextInt_lt {rng : Rng} {n : Nat} (hv : rng.Valid) (hn : 0 < n) :
    (rng.nextInt n).1 < n := by
  cases rng with
  | seeded st =>
      simp only [Rng.nextInt]
      have h := mb32_fst_lt st
      have : (mb32 st).1 * n < n * 4294967296 := by
        calc (mb32 st).1 * n < 4294967296 * n :=
              Nat.mul_lt_mul_of_lt_of_le h (le_refl n) (by omega)
          _ = n * 4294967296 := Nat.mul_comm _ _
      exact Nat.div_lt_of_lt_mul (by omega)
  | ambient f =>
      simp only [Rng.nextInt]
      rcases hv 0 with ⟨h0, h1⟩
      have hfl : Int.floor (f 0 * (n : ℚ)) < (n : ℤ) := by
        rw [Int.floor_lt]
        push_cast
        calc f 0 * (n : ℚ) < 1 * (n : ℚ) := by
              apply mul_lt_mul_of_pos_right h1
              exact_mod_cast hn
          _ = (n : ℚ) := one_mul _
      rcases le_or_lt 0 (Int.floor (f 0 * (n : ℚ))) with hge | hlt
      · exact (Int.toNat_lt hge).mpr hfl
      · rw [Int.toNat_of_nonpos (le_of_lt hlt)]; exact hn

theorem Rng.nextInt_valid {rng : Rng} (n : Nat) (hv : rng.Valid) :
    (rng.nextInt n).2.Valid := by
  cases rng with
  | seeded st => trivial
  | ambient f =>
      intro k
      exact hv (k + 1)

theorem Rng.next_valid {rng : Rng} (hv : rng.Valid) : (rng.next).2.Valid := by
  cases rng with
  | seeded st => trivial
  | ambient f => intro k; exact hv (k + 1)

theorem foldl_min_le_init (l : List Cand) (a : Nat) :
    l.foldl (fun m t => min m t.length) a ≤ a := by
  induction l generalizing a with
  | nil => exact le_refl a
  | cons b t ih =>
      simp only [List.foldl_cons]
      exact le_trans (ih (min a b.length)) (min_le_left _ _)

theorem foldl_min_le_mem (l : List Cand) (a : Nat) {x : Cand} (hx : x ∈ l) :
    l.foldl (fun m t => min m t.length) a ≤ x.length := by
  induction l generalizing a with
  | nil => simp at hx
  | cons b t ih =>
      simp only [List.foldl_cons]
      rcases List.mem_cons.mp hx with rfl | hx
      · exact le_trans (foldl_min_le_init t _) (min_le_right _ _)
      · exact ih (min a b.length) hx

theorem foldl_min_attained (l : List Cand) (a : Nat) :
    l.foldl (fun m t => min m t.length) a = a ∨
      ∃ x ∈ l, l.foldl (fun m t => min m t.length) a = x.length := by
  induction l generalizing a with
  | nil => left; rfl
  | cons b t ih =>
      simp only [List.foldl_cons]
      rcases ih (min a b.length) with h | ⟨x, hx, he⟩
      · rcases min_cases a b.length with ⟨he, _⟩ | ⟨he, _⟩
        · left; rw [h, he]
        · right; exact ⟨b, by simp, by rw [h, he]⟩
      · right; exact ⟨x, by simp [hx], he⟩

theorem foldl_max_ge_init (l : List Cand) (a : Nat) :
    a ≤ l.foldl (fun m t => max m t.length) a := by
  induction l generalizing a with
  | nil => exact le_refl a
  | cons b t ih =>
      simp only [List.foldl_cons]
      exact le_trans (le_max_left _ _) (ih (max a b.length))

theorem foldl_max_ge_mem (l : List Cand) (a : Nat) {x : Cand} (hx : x ∈ l) :
    x.length ≤ l.foldl (fun m t => max m t.length) a := by
  induction l generalizing a with
  | nil => simp at hx
  | cons b t ih =>
      simp only [List.foldl_cons]
      rcases List.mem_cons.mp hx with rfl | hx
      · exact le_trans (le_max_right _ _) (foldl_max_ge_init t _)
      · exact ih (max a b.length) hx

theorem foldl_max_attained (l : List Cand) (a : Nat) :
    l.foldl (fun m t => max m t.length) a = a ∨
      ∃ x ∈ l, l.foldl (fun m t => max m t.length) a = x.length := by
  induction l generalizing a with
  | nil => left; rfl
  | cons b t ih =>
      simp only [List.foldl_cons]
      rcases ih (max a b.length) with h | ⟨x, hx, he⟩
      · rcases max_cases a b.length with ⟨he, _⟩ | ⟨he, _⟩
        · left; rw [h, he]
        · right; exact ⟨b, by simp, by rw [h, he]⟩
      · right; exact ⟨x, by simp [hx], he⟩

theorem minLenOf_le (c : Cand) (cs : List Cand) :
    ∀ x ∈ c :: cs, minLenOf c cs ≤ x.length := by
  intro x hx
  rcases List.mem_cons.mp hx with rfl | hx
  · exact foldl_min_le_init cs x.length
  · exact foldl_min_le_mem cs c.length hx

theorem minLenOf_mem (c : Cand) (cs : List Cand) :
    ∃ x ∈ c :: cs, minLenOf c cs = x.length := by
  rcases foldl_min_attained cs c.length with h | ⟨x, hx, he⟩
  · exact ⟨c, by simp, h⟩
  · exact ⟨x, by simp [hx], he⟩

theorem maxLenOf_ge (c : Cand) (cs : List Cand) :
    ∀ x ∈ c :: cs, x.length ≤ maxLenOf c cs := by
  intro x hx
  rcases List.mem_cons.mp hx with rfl | hx
  · exact foldl_max_ge_init cs x.length
  · exact foldl_max_ge_mem cs c.length hx

theorem maxLenOf_mem (c : Cand) (cs : List Cand) :
    ∃ x ∈ c :: cs, maxLenOf c cs = x.length := by
  rcases foldl_max_attained cs c.length with h | ⟨x, hx, he⟩
  · exact ⟨c, by simp, h⟩
  · exact ⟨x, by simp [hx], he⟩

/-- Whatever the random draw, the selected candidate is one of the
candidates. -/
theorem selectTok_mem (strat : Strategy) (ideal : Nat) (c : Cand) (cs : List Cand)
    (rng : Rng) : (selectTok strat ideal c cs rng).1 ∈ c :: cs := by
  cases strat with
  | shortest =>
      simp only [selectTok]
      rcases List.getD_mem_or ((c :: cs).filter (fun t => t.length == minLenOf c cs))
          (rng.nextInt ((c :: cs).filter (fun t => t.length == minLenOf c cs)).length).1 c with
        h | h
      · exact List.mem_of_mem_filter h
      · rw [h]; simp
  | longest =>
      simp only [selectTok]
      rcases List.getD_mem_or ((c :: cs).filter (fun t => t.length == maxLenOf c cs))
          (rng.nextInt ((c :: cs).filter (fun t => t.length == maxLenOf c cs)).length).1 c with
        h | h
      · exact List.mem_of_mem_filter h
      · rw [h]; simp
  | idealLength =>
      simp only [selectTok]
      cases hp : pickIdx (rng.next.1)
          (((c :: cs).map (fun t => 1 / (1 + |(t.length : ℚ) - (ideal : ℚ)|))).foldl (· + ·) 0)
          ((c :: cs).map (fun t => 1 / (1 + |(t.length : ℚ) - (ideal : ℚ)|))) 0 with
      | none => exact List.getLastD_mem c cs
      | some i =>
          rcases List.getD_mem_or (c :: cs) i c with h | h
          · exact h
          · show (c :: cs).getD i c ∈ c :: cs
            rw [h]; simp
  | random =>
      simp only [selectTok]
      rcases List.getD_mem_or (c :: cs) (rng.nextInt (c :: cs).length).1 c with h | h
      · exact h
      · rw [h]; simp

theorem selectTok_valid (strat : Strategy) (ideal : Nat) (c : Cand) (cs : List Cand)
    {rng : Rng} (hv : rng.Valid) : (selectTok strat ideal c cs rng).2.Valid := by
  cases strat with
  | shortest => exact Rng.nextInt_valid _ hv
  | longest => exact Rng.nextInt_valid _ hv
  | idealLength =>
      simp only [selectTok]
      cases hp : pickIdx (rng.next.1)
          (((c :: cs).map (fun t => 1 / (1 + |(t.length : ℚ) - (ideal : ℚ)|))).foldl (· + ·) 0)
          ((c :: cs).map (fun t => 1 / (1 + |(t.length : ℚ) - (ideal : ℚ)|))) 0 with
      | none => exact Rng.next_valid hv
      | some i => exact Rng.next_valid hv
  | random => exact Rng.nextInt_valid _ hv

/-! ### Trie lemmas: paths in the trie are exactly the vocabulary tokens -/

theorem findChild_updChild_self (c : Char) (t : Trie) (ch : List (Char × Trie)) :
    findChild c (updChild c t ch) = some t := by
  induction ch with
  | nil => simp [updChild, findChild]
  | cons p rest ih =>
      by_cases h : p.1 = c
      · simp [updChild, findChild, h]
      · simp [updChild, findChild, h, ih]

theorem findChild_updChild_ne {d c : Char} (h : d ≠ c) (t : Trie)
    (ch : List (Char × Trie)) : findChild d (updChild c t ch) = findChild d ch := by
  induction ch with
  | nil => simp [updChild, findChild, Ne.symm h]
  | cons p rest ih =>
      by_cases hp : p.1 = c
      · simp [updChild, findChild, hp, Ne.symm h]
      · simp [updChild, findChild, hp, ih]

theorem emptyTrie_no_path (p : List Char) (i : Nat) : ¬ (Trie.node [] []).hasPath p i := by
  cases p with
  | nil => simp [Trie.hasPath, Trie.tokenIds]
  | cons c cs =>
      rintro ⟨child, hc, -⟩
      simp [findChild, Trie.children] at hc

theorem insertToken_hasPath_self (tok : List Char) (i : Nat) (t : Trie) :
    (insertToken tok i t).hasPath tok i := by
  induction tok generalizing t with
  | nil =>
      cases t with
      | node ids ch => simp [insertToken, Trie.hasPath, Trie.tokenIds]
  | cons c cs ih =>
      cases t with
      | node ids ch =>
          refine ⟨insertToken cs i ((findChild c ch).getD (.node [] [])), ?_, ih _⟩
          simp [insertToken, Trie.children, findChild_updChild_self]

theorem insertToken_hasPath_mono {p : List Char} {i : Nat} {t : Trie}
    (h : t.hasPath p i) (tok : List Char) (j : Nat) :
    (insertToken tok j t).hasPath p i := by
  induction p generalizing tok t with
  | nil =>
      cases t with
      | node ids ch =>
          cases tok with
          | nil =>
              simp only [Trie.hasPath, Trie.tokenIds] at h ⊢
              simp [insertToken, Trie.tokenIds]
              exact Or.inl h
          | cons c cs => simpa [insertToken, Trie.hasPath, Trie.tokenIds] using h
  | cons d ds ih =>
      cases t with
      | node ids ch =>
          obtain ⟨child, hfc, hchild⟩ := h
          simp only [Trie.children] at hfc
          cases tok with
          | nil => exact ⟨child, by simpa [insertToken, Trie.children] using hfc, hchild⟩
          | cons c cs =>
              by_cases hdc : d = c
              · subst hdc
                have hc0 : (findChild d ch).getD (.node [] []) = child := by simp [hfc]
                refine ⟨insertToken cs j child, ?_, ih hchild cs⟩
                simp [insertToken, Trie.children, hc0, findChild_updChild_self]
              · refine ⟨child, ?_, hchild⟩
                simpa [insertToken, Trie.children, findChild_updChild_ne hdc] using hfc

theorem insertToken_hasPath_inv {p : List Char} {i : Nat} {tok : List Char} {j : Nat}
    {t : Trie} (h : (insertToken tok j t).hasPath p i) :
    t.hasPath p i ∨ (p = tok ∧ i = j) := by
  induction p generalizing tok t with
  | nil =>
      cases t with
      | node ids ch =>
          cases tok with
          | nil =>
              simp only [insertToken, Trie.hasPath, Trie.tokenIds, List.mem_append,
                List.mem_singleton] at h
              rcases h with h | h
              · exact Or.inl h
              · exact Or.inr ⟨rfl, h⟩
          | cons c cs =>
              simp only [insertToken, Trie.hasPath, Trie.tokenIds] at h
              exact Or.inl h
  | cons d ds ih =>
      cases t with
      | node ids ch =>
          cases tok with
          | nil =>
              obtain ⟨child, hfc, hchild⟩ := h
              simp only [insertToken, Trie.children] at hfc
              exact Or.inl ⟨child, hfc, hchild⟩
          | cons c cs =>
              obtain ⟨child, hfc, hchild⟩ := h
              simp only [insertToken, Trie.children] at hfc
              by_cases hdc : d = c
              · subst hdc
                rw [findChild_updChild_self] at hfc
                cases hfc
                rcases ih hchild with hc0 | ⟨rfl, rfl⟩
                · cases hch : findChild d ch with
                  | some child0 =>
                      rw [hch] at hc0
                      simp only [Option.getD_some] at hc0
                      exact Or.inl ⟨child0, hch, hc0⟩
                  | none =>
                      rw [hch] at hc0
                      simp only [Option.getD_none] at hc0
                      exact absurd hc0 (emptyTrie_no_path ds i)
                · exact Or.inr ⟨rfl, rfl⟩
              · rw [findChild_updChild_ne hdc] at hfc
                exact Or.inl ⟨child, hfc, hchild⟩

theorem buildTrieAux_mono {p : List Char} {i : Nat} {t : Trie} (h : t.hasPath p i)
    (toks : List (List Char)) (k : Nat) : (buildTrieAux toks k t).hasPath p i := by
  induction toks generalizing t k with
  | nil => exact h
  | cons s rest ih => exact ih (insertToken_hasPath_mono h s k) (k + 1)

theorem buildTrieAux_hasPath_get {toks : List (List Char)} {off : Nat} {s : List Char}
    (h : toks.get? off = some s) (k : Nat) (t : Trie) :
    (buildTrieAux toks k t).hasPath s (k + off) := by
  induction toks generalizing off k t with
  | nil => simp at h
  | cons a rest ih =>
      cases off with
      | zero =>
          simp only [List.get?_cons_zero, Option.some_inj] at h
          subst h
          simpa using buildTrieAux_mono (insertToken_hasPath_self _ k t) rest (k + 1)
      | succ o =>
          simp only [List.get?_cons_succ] at h
          have := ih h (k + 1) (insertToken a k t)
          simpa [Nat.add_comm, Nat.add_left_comm] using this

theorem buildTrieAux_inv {p : List Char} {i : Nat} {toks : List (List Char)} {k : Nat}
    {t : Trie} (h : (buildTrieAux toks k t).hasPath p i) :
    t.hasPath p i ∨ ∃ off, toks.get? off = some p ∧ i = k + off := by
  induction toks generalizing k t with
  | nil => exact Or.inl h
  | cons a rest ih =>
      rcases ih h with h2 | ⟨off, hget, hi⟩
      · rcases insertToken_hasPath_inv h2 with h3 | ⟨rfl, rfl⟩
        · exact Or.inl h3
        · exact Or.inr ⟨0, by simp, by simp⟩
      · exact Or.inr ⟨off + 1, by simpa using hget, by omega⟩

/-- Completeness of the trie: every vocabulary token is a path. -/
theorem buildTrie_hasPath {toks : List (List Char)} {i : Nat} {s : List Char}
    (h : toks.get? i = some s) : (buildTrie toks).hasPath s i := by
  simpa using buildTrieAux_hasPath_get h 0 (.node [] [])

/-- Soundness of the trie: a path holding id `i` spells token `i`. -/
theorem buildTrie_sound {toks : List (List Char)} {p : List Char} {i : Nat}
    (h : (buildTrie toks).hasPath p i) : toks.get? i = some p := by
  rcases buildTrieAux_inv h with h2 | ⟨off, hget, hi⟩
  · exact absurd h2 (emptyTrie_no_path p i)
  · subst hi; simpa using hget

/-! ### `findValidTokens` soundness and completeness -/

/-- Soundness: every candidate corresponds to a trie path spelling a prefix
of the remaining text, of positive length. -/
theorem findValidTokensAux_sound {l : List Char} {t : Trie} {acc : List Char} {cand : Cand}
    (h : cand ∈ findValidTokensAux t acc l) :
    ∃ k, 1 ≤ k ∧ k ≤ l.length ∧ cand.length = acc.length + k ∧
      cand.text = acc ++ l.take k ∧ t.hasPath (l.take k) cand.id := by
  induction l generalizing t acc with
  | nil => simp [findValidTokensAux] at h
  | cons c rest ih =>
      simp only [findValidTokensAux] at h
      cases hfc : findChild c t.children with
      | none => rw [hfc] at h; simp at h
      | some child =>
          rw [hfc] at h
          simp only [List.mem_append, List.mem_map] at h
          rcases h with ⟨id, hid, heq⟩ | h
          · refine ⟨1, le_refl 1, by simp, ?_, ?_, ?_⟩
            · rw [← heq]; simp
            · rw [← heq]; simp
            · rw [← heq]
              exact ⟨child, hfc, hid⟩
          · obtain ⟨k, hk1, hkle, hlen, htext, hpath⟩ := ih h
            refine ⟨k + 1, by omega, by simp; omega, ?_, ?_, ?_⟩
            · rw [hlen]; simp; omega
            · rw [htext]; simp
            · exact ⟨child, hfc, hpath⟩

/-- Completeness: a trie path that is a nonempty prefix of the remaining
text yields a candidate. -/
theorem findValidTokensAux_complete {tok : List Char} {t : Trie} {i : Nat}
    (hpath : t.hasPath tok i) (hne : tok ≠ []) :
    ∀ {l : List Char}, tok <+: l → ∀ acc,
      ∃ cand ∈ findValidTokensAux t acc l,
        cand.id = i ∧ cand.length = acc.length + tok.length ∧ cand.text = acc ++ tok := by
  induction tok generalizing t with
  | nil => exact absurd rfl hne
  | cons c cs ih =>
      intro l hpre acc
      obtain ⟨child, hfc, hchild⟩ := hpath
      cases l with
      | nil => simpa using hpre.length_le
      | cons d rest =>
          obtain ⟨hcd, hcs⟩ := List.cons_prefix_cons.mp hpre
          subst hcd
          simp only [findValidTokensAux, hfc]
          cases cs with
          | nil =>
              refine ⟨{ id := i, length := (acc ++ [c]).length, text := acc ++ [c] }, ?_, rfl, by simp, by simp⟩
              apply List.mem_append_left
              exact List.mem_map.mpr ⟨i, hchild, rfl⟩
          | cons c2 cs2 =>
              obtain ⟨cand, hmem, hid, hlen, htext⟩ :=
                ih hchild (by simp) hcs (acc ++ [c])
              refine ⟨cand, List.mem_append_right _ hmem, hid, ?_, ?_⟩
              · rw [hlen]; simp; omega
              · rw [htext]; simp

/-! ### Selection lemmas under a valid random source -/

theorem selectTok_shortest_len {rng : Rng} (hv : rng.Valid) (ideal : Nat) (c : Cand)
    (cs : List Cand) : (selectTok .shortest ideal c cs rng).1.length = minLenOf c cs := by
  simp only [selectTok]
  obtain ⟨x, hx, hxe⟩ := minLenOf_mem c cs
  have hxf : x ∈ (c :: cs).filter (fun t => t.length == minLenOf c cs) :=
    List.mem_filter.mpr ⟨hx, by simp [hxe.symm]⟩
  have hpos : 0 < ((c :: cs).filter (fun t => t.length == minLenOf c cs)).length :=
    List.length_pos.mpr (List.ne_nil_of_mem hxf)
  have hlt := Rng.nextInt_lt hv hpos
  have hmem := List.getD_mem_of_lt c hlt
  have hb := (List.mem_filter.mp hmem).2
  simpa using hb

theorem selectTok_longest_len {rng : Rng} (hv : rng.Valid) (ideal : Nat) (c : Cand)
    (cs : List Cand) : (selectTok .longest ideal c cs rng).1.length = maxLenOf c cs := by
  simp only [selectTok]
  obtain ⟨x, hx, hxe⟩ := maxLenOf_mem c cs
  have hxf : x ∈ (c :: cs).filter (fun t => t.length == maxLenOf c cs) :=
    List.mem_filter.mpr ⟨hx, by simp [hxe.symm]⟩
  have hpos : 0 < ((c :: cs).filter (fun t => t.length == maxLenOf c cs)).length :=
    List.length_pos.mpr (List.ne_nil_of_mem hxf)
  have hlt := Rng.nextInt_lt hv hpos
  have hmem := List.getD_mem_of_lt c hlt
  have hb := (List.mem_filter.mp hmem).2
  simpa using hb

/-! ### Per-segment loop lemmas -/

theorem covered_of_sublist {toks : List (List Char)} {l l' : List Char}
    (h : Covered toks l) (hsub : ∀ ch ∈ l', ch ∈ l) : Covered toks l' :=
  fun ch hch => h ch (hsub ch hch)

/-- With full single-character coverage the candidate list at the head of a
nonempty suffix is never empty. -/
theorem aux_ne_nil_of_covered {toks : List (List Char)} {c : Char} {rest : List Char}
    (h : ∃ i, toks.get? i = some [c]) :
    findValidTokensAux (buildTrie toks) [] (c :: rest) ≠ [] := by
  obtain ⟨i, hi⟩ := h
  obtain ⟨cand, hmem, -⟩ :=
    findValidTokensAux_complete (buildTrie_hasPath hi) (by simp)
      (l := c :: rest) ⟨rest, rfl⟩ []
  exact List.ne_nil_of_mem hmem

/-- Round-trip of the per-segment loop: with full coverage the emitted token
texts concatenate back to the segment text, for every strategy and every
random source. -/
theorem tokLoopF_detok (v : Vocab) (strat : Strategy) (ideal : Nat) :
    ∀ (fuel : Nat) (l : List Char) (rng : Rng), l.length ≤ fuel →
      Covered v.tokens l →
      detokenize v (tokLoopF (buildTrie v.tokens) strat ideal fuel l rng).1 = l := by
  intro fuel
  induction fuel with
  | zero =>
      intro l rng hf _
      have : l = [] := List.length_eq_zero.mp (Nat.le_zero.mp hf)
      subst this
      simp [tokLoopF, detokenize]
  | succ fuel ih =>
      intro l rng hf hcov
      cases l with
      | nil => simp [tokLoopF, detokenize]
      | cons c rest =>
          have hne : findValidTokensAux (buildTrie v.tokens) [] (c :: rest) ≠ [] :=
            aux_ne_nil_of_covered (hcov c (by simp))
          cases haux : findValidTokensAux (buildTrie v.tokens) [] (c :: rest) with
          | nil => exact absurd haux hne
          | cons c0 cands =>
              have hmem : (selectTok strat ideal c0 cands rng).1 ∈ c0 :: cands :=
                selectTok_mem strat ideal c0 cands rng
              rw [← haux] at hmem
              obtain ⟨k, hk1, hkle, hlen, htext, hpath⟩ := findValidTokensAux_sound hmem
              have hget := buildTrie_sound hpath
              simp only [List.nil_append, List.length_nil, Nat.zero_add] at hlen htext hget
              simp only [tokLoopF, haux]
              have hdrop : ((c :: rest).drop (selectTok strat ideal c0 cands rng).1.length).length
                  ≤ fuel := by
                rw [List.length_drop]
                simp only [List.length_cons] at hf ⊢
                omega
              have hcov' : Covered v.tokens ((c :: rest).drop (selectTok strat ideal c0 cands rng).1.length) :=
                covered_of_sublist hcov (fun ch hch => List.mem_of_mem_drop hch)
              have ihr := ih ((c :: rest).drop (selectTok strat ideal c0 cands rng).1.length)
                (selectTok strat ideal c0 cands rng).2 hdrop hcov'
              simp only [detokenize, List.map_cons, List.flatten_cons] at ihr ⊢
              rw [hget, Option.getD_some, ihr, hlen]
              exact List.take_append_drop k (c :: rest)

/-- The loop never emits more tokens than characters, for any trie, strategy
and random source. -/
theorem tokLoopF_length_le (trie : Trie) (strat : Strategy) (ideal : Nat) :
    ∀ (fuel : Nat) (l : List Char) (rng : Rng),
      (tokLoopF trie strat ideal fuel l rng).1.length ≤ l.length := by
  intro fuel
  induction fuel with
  | zero => intro l rng; simp [tokLoopF]
  | succ fuel ih =>
      intro l rng
      cases l with
      | nil => simp [tokLoopF]
      | cons c rest =>
          cases haux : findValidTokensAux trie [] (c :: rest) with
          | nil =>
              simp only [tokLoopF, haux]
              calc (tokLoopF trie strat ideal fuel rest rng).1.length ≤ rest.length := ih rest rng
                _ ≤ (c :: rest).length := by simp
          | cons c0 cands =>
              have hmem : (selectTok strat ideal c0 cands rng).1 ∈ c0 :: cands :=
                selectTok_mem strat ideal c0 cands rng
              rw [← haux] at hmem
              obtain ⟨k, hk1, hkle, hlen, -, -⟩ := findValidTokensAux_sound hmem
              simp only [List.length_nil, Nat.zero_add] at hlen
              simp only [tokLoopF, haux, List.length_cons]
              have := ih ((c :: rest).drop (selectTok strat ideal c0 cands rng).1.length)
                (selectTok strat ideal c0 cands rng).2
              rw [List.length_drop] at this
              simp only [List.length_cons] at this hkle ⊢
              omega

/-- Validity of the random source is preserved by the loop. -/
theorem tokLoopF_valid (trie : Trie) (strat : Strategy) (ideal : Nat) :
    ∀ (fuel : Nat) (l : List Char) {rng : Rng}, rng.Valid →
      (tokLoopF trie strat ideal fuel l rng).2.Valid := by
  intro fuel
  induction fuel with
  | zero => intro l rng hv; simpa [tokLoopF] using hv
  | succ fuel ih =>
      intro l rng hv
      cases l with
      | nil => simpa [tokLoopF] using hv
      | cons c rest =>
          cases haux : findValidTokensAux trie [] (c :: rest) with
          | nil =>
              simp only [tokLoopF, haux]
              exact ih rest hv
          | cons c0 cands =>
              simp only [tokLoopF, haux]
              exact ih _ (selectTok_valid strat ideal c0 cands hv)

/-- Under full coverage and a valid random source, the `"shortest"` strategy
emits exactly one token per character. -/
theorem tokLoopF_length_shortest (v : Vocab) (ideal : Nat) :
    ∀ (fuel : Nat) (l : List Char) (rng : Rng), l.length ≤ fuel → rng.Valid →
      Covered v.tokens l →
      (tokLoopF (buildTrie v.tokens) .shortest ideal fuel l rng).1.length = l.length := by
  intro fuel
  induction fuel with
  | zero =>
      intro l rng hf _ _
      have : l = [] := List.length_eq_zero.mp (Nat.le_zero.mp hf)
      subst this
      simp [tokLoopF]
  | succ fuel ih =>
      intro l rng hf hv hcov
      cases l with
      | nil => simp [tokLoopF]
      | cons c rest =>
          obtain ⟨i, hi⟩ := hcov c (by simp)

          obtain ⟨cand1, hmem1, -, hlen1, -⟩ :=
            findValidTokensAux_complete (buildTrie_hasPath hi) (by simp)
              (l := c :: rest) ⟨rest, rfl⟩ []
          simp only [List.length_nil, Nat.zero_add, List.length_cons] at hlen1
          cases haux : findValidTokensAux (buildTrie v.tokens) [] (c :: rest) with
          | nil => rw [haux] at hmem1; simp at hmem1
          | cons c0 cands =>
              rw [haux] at hmem1
              -- every candidate has positive length, and one has length 1
              have hminle : minLenOf c0 cands ≤ 1 := by
                have := minLenOf_le c0 cands cand1 hmem1
                omega
              have hminpos : 1 ≤ minLenOf c0 cands := by
                obtain ⟨x, hx, hxe⟩ := minLenOf_mem c0 cands
                rw [← haux] at hx
                obtain ⟨k, hk1, -, hlenx, -, -⟩ := findValidTokensAux_sound hx
                simp only [List.length_nil, Nat.zero_add] at hlenx
                omega
              have hsel1 : (selectTok .shortest ideal c0 cands rng).1.length = 1 := by
                rw [selectTok_shortest_len hv]
                omega
              simp only [tokLoopF, haux, List.length_cons, hsel1]
              have := ih ((c :: rest).drop 1) (selectTok .shortest ideal c0 cands rng).2
                (by simpa using Nat.le_of_succ_le_succ hf)
                (selectTok_valid _ ideal c0 cands hv)
                (covered_of_sublist hcov (fun ch hch => List.mem_of_mem_drop hch))
              simp only [List.drop_one, List.tail_cons] at this ⊢
              omega

/-- Every id emitted by the loop is a valid vocabulary index. -/
theorem tokLoopF_ids_lt (toks : List (List Char)) (strat : Strategy) (ideal : Nat) :
    ∀ (fuel : Nat) (l : List Char) (rng : Rng) {id : Nat},
      id ∈ (tokLoopF (buildTrie toks) strat ideal fuel l rng).1 → id < toks.length := by
  intro fuel
  induction fuel with
  | zero => intro l rng id h; simp [tokLoopF] at h
  | succ fuel ih =>
      intro l rng id h
      cases l with
      | nil => simp [tokLoopF] at h
      | cons c rest =>
          cases haux : findValidTokensAux (buildTrie toks) [] (c :: rest) with
          | nil =>
              rw [tokLoopF, haux] at h
              exact ih rest rng h
          | cons c0 cands =>
              rw [tokLoopF, haux] at h
              simp only [List.mem_cons] at h
              rcases h with rfl | h
              · have hmem : (selectTok strat ideal c0 cands rng).1 ∈ c0 :: cands :=
                  selectTok_mem strat ideal c0 cands rng
                rw [← haux] at hmem
                obtain ⟨k, -, -, -, -, hpath⟩ := findValidTokensAux_sound hmem
                have hget := buildTrie_sound hpath
                rw [List.get?_eq_some] at hget
                obtain ⟨hlt, -⟩ := hget
                exact hlt
              · exact ih _ _ h

/-! ### Special-token map and scan lemmas -/

theorem mapSet_mem {m : List (List Char × Nat)} {k : List Char} {v : Nat}
    {q : List Char × Nat} (h : q ∈ mapSet m k v) : q = (k, v) ∨ q ∈ m := by
  induction m with
  | nil => simpa [mapSet] using h
  | cons p rest ih =>
      by_cases hp : p.1 = k
      · rw [show (p :: rest : List _) = (p.1, p.2) :: rest by rfl] at h ⊢
        simp only [mapSet, hp, if_pos rfl] at h
        rcases List.mem_cons.mp h with h | h
        · exact Or.inl h
        · exact Or.inr (List.mem_cons_of_mem _ h)
      · rw [show (p :: rest : List _) = (p.1, p.2) :: rest by rfl] at h ⊢
        simp only [mapSet, hp, if_neg hp] at h
        rcases List.mem_cons.mp h with h | h
        · exact Or.inr (by simp [h])
        · rcases ih h with h | h
          · exact Or.inl h
          · exact Or.inr (List.mem_cons_of_mem _ h)

/-- Every entry of the special-token map maps the text of a valid,
nonempty-text vocabulary id. -/
theorem setIfPresent_entries {toks : List (List Char)} {m : List (List Char × Nat)}
    (hm : ∀ q ∈ m, toks.get? q.2 = some q.1 ∧ q.1 ≠ []) (id : Nat) :
    ∀ q ∈ setIfPresent toks m id, toks.get? q.2 = some q.1 ∧ q.1 ≠ [] := by
  intro q hq
  unfold setIfPresent at hq
  cases hg : toks.get? id with
  | none => rw [hg] at hq; exact hm q hq
  | some t =>
      rw [hg] at hq
      replace hq : q ∈ (if t = [] then m else mapSet m t id) := hq
      by_cases ht : t = []
      · rw [if_pos ht] at hq; exact hm q hq
      · rw [if_neg ht] at hq
        rcases mapSet_mem hq with h | h
        · subst h; exact ⟨hg, ht⟩
        · exact hm q h

theorem buildSpecialTokenMap_entries (v : Vocab) :
    ∀ q ∈ buildSpecialTokenMap v, v.tokens.get? q.2 = some q.1 ∧ q.1 ≠ [] := by
  unfold buildSpecialTokenMap
  have base : ∀ (ids : List Nat) (m : List (List Char × Nat)),
      (∀ q ∈ m, v.tokens.get? q.2 = some q.1 ∧ q.1 ≠ []) →
      ∀ q ∈ ids.foldl (setIfPresent v.tokens) m,
        v.tokens.get? q.2 = some q.1 ∧ q.1 ≠ [] := by
    intro ids
    induction ids with
    | nil => intro m hm; exact hm
    | cons i rest ih =>
        intro m hm
        exact ih (setIfPresent v.tokens m i) (setIfPresent_entries hm i)
  have h1 := base (v.special_token_ids.getD []) [] (by simp)
  have h2 : ∀ q ∈ (match v.bos_token_id with
      | some i => setIfPresent v.tokens ((v.special_token_ids.getD []).foldl
          (setIfPresent v.tokens) []) i
      | none => (v.special_token_ids.getD []).foldl (setIfPresent v.tokens) []),
      v.tokens.get? q.2 = some q.1 ∧ q.1 ≠ [] := by
    cases v.bos_token_id with
    | none => exact h1
    | some i => exact setIfPresent_entries h1 i
  cases v.eos_token_id with
  | none => exact h2
  | some i => exact setIfPresent_entries h2 i

theorem strIndexOfFrom_some {text pat : List Char} {start i : Nat}
    (h : strIndexOfFrom text pat start = some i) :
    start ≤ i ∧ pat <+: text.drop i ∧ i ≤ text.length := by
  have hp := List.find?_some h
  have hm := List.mem_of_find?_eq_some h
  simp only [Bool.and_eq_true, decide_eq_true_eq] at hp
  refine ⟨hp.1, ?_, ?_⟩
  · exact List.isPrefixOf_iff_prefix.mp hp.2
  · have := List.mem_range.mp hm
    omega

theorem scanFrom_sound {text pat : List Char} {id : Nat} :
    ∀ (fuel pos : Nat) {m : SpecialMatch}, m ∈ scanFrom text pat id fuel pos →
      m.tokenId = id ∧ m.endPos = m.start + pat.length ∧
        pat <+: text.drop m.start ∧ m.endPos ≤ text.length := by
  intro fuel
  induction fuel with
  | zero => intro pos m h; simp [scanFrom] at h
  | succ fuel ih =>
      intro pos m h
      unfold scanFrom at h
      cases hidx : strIndexOfFrom text pat pos with
      | none => rw [hidx] at h; simp at h
      | some i =>
          rw [hidx] at h
          obtain ⟨-, hpre, hile⟩ := strIndexOfFrom_some hidx
          rcases List.mem_cons.mp h with rfl | h
          · refine ⟨rfl, rfl, hpre, ?_⟩
            have := hpre.length_le
            rw [List.length_drop] at this
            simp only []
            omega
          · exact ih _ h

theorem findSpecialTokens_matchOK {v : Vocab} {text : List Char} {m : SpecialMatch}
    (h : m ∈ findSpecialTokens (buildSpecialTokenMap v) text) : MatchOK v text m := by
  unfold findSpecialTokens at h
  rw [(List.perm_insertionSort matchLE _).mem_iff] at h
  rw [List.mem_flatten] at h
  obtain ⟨l, hl, hml⟩ := h
  rw [List.mem_map] at hl
  obtain ⟨p, hpmem, rfl⟩ := hl
  obtain ⟨hid, hend, hpre, hle⟩ := scanFrom_sound _ _ hml
  obtain ⟨hget, -⟩ := buildSpecialTokenMap_entries v p hpmem
  have htake : (text.drop m.start).take p.1.length = p.1 :=
    (List.prefix_iff_eq_take.mp hpre).symm
  refine ⟨by omega, hle, ?_⟩
  rw [hid, hget, hend]
  have harith : m.start + p.1.length - m.start = p.1.length := by omega
  rw [harith, htake]

/-! ### Segment lemmas -/

theorem detokenize_cons (v : Vocab) (i : Nat) (ids : List Nat) :
    detokenize v (i :: ids) = (v.tokens.get? i).getD [] ++ detokenize v ids := by
  simp [detokenize]

theorem detokenize_append (v : Vocab) (a b : List Nat) :
    detokenize v (a ++ b) = detokenize v a ++ detokenize v b := by
  simp [detokenize]

theorem interleaveSegs_filterMap (len : Nat) :
    ∀ (lastPos : Nat) (ms : List SpecialMatch),
      (interleaveSegs len lastPos ms).filterMap Segment.specialData = ms := by
  intro lastPos ms
  induction ms generalizing lastPos with
  | nil =>
      by_cases h : lastPos < len <;>
        simp [interleaveSegs, h, Segment.specialData]
  | cons m rest ih =>
      by_cases h : lastPos < m.start <;>
        simp [interleaveSegs, h, Segment.specialData, ih]

theorem buildSegments_filterMap (len : Nat) (ms : List SpecialMatch) :
    (buildSegments len ms).filterMap Segment.specialData = ms := by
  cases ms with
  | nil => simp [buildSegments, Segment.specialData]
  | cons m rest => exact interleaveSegs_filterMap len 0 (m :: rest)

theorem drop_take_append {α : Type _} (l : List α) {a b : Nat} (hab : a ≤ b) :
    (l.drop a).take (b - a) ++ l.drop b = l.drop a := by
  have hdd : (l.drop a).drop (b - a) = l.drop b := by
    rw [List.drop_drop]
    congr 1
    omega
  calc (l.drop a).take (b - a) ++ l.drop b
      = (l.drop a).take (b - a) ++ (l.drop a).drop (b - a) := by rw [hdd]
    _ = l.drop a := List.take_append_drop _ _

/-- Tiling: with pairwise non-overlapping, in-bounds matches the segment
pass reproduces the text from `lastPos` on (for every strategy and random
source, with full character coverage for the normal spans). -/
theorem tokenizeSegs_detok (v : Vocab) (strat : Strategy) (ideal : Nat)
    {text : List Char} (hcov : Covered v.tokens text) :
    ∀ (ms : List SpecialMatch) (lastPos : Nat) (rng : Rng),
      (∀ m ∈ ms, MatchOK v text m) →
      List.Chain' (fun a b => a.endPos ≤ b.start) ms →
      (∀ m ∈ ms.head?, lastPos ≤ m.start) →
      detokenize v (tokenizeSegs (buildTrie v.tokens) strat ideal text
        (interleaveSegs text.length lastPos ms) rng).1 = text.drop lastPos := by
  intro ms
  induction ms with
  | nil =>
      intro lastPos rng _ _ _
      by_cases h : lastPos < text.length
      · simp only [interleaveSegs, if_pos h, tokenizeSegs]
        have hseg : (text.drop lastPos).take (text.length - lastPos) = text.drop lastPos := by
          conv_lhs => rw [show text.length - lastPos = (text.drop lastPos).length by
            rw [List.length_drop]]
          exact List.take_length _
        rw [hseg]
        have hd := tokLoopF_detok v strat ideal (text.drop lastPos).length
          (text.drop lastPos) rng (le_refl _)
          (covered_of_sublist hcov (fun ch hch => List.mem_of_mem_drop hch))
        simpa [tokLoop, detokenize] using hd
      · simp only [interleaveSegs, if_neg h, tokenizeSegs]
        rw [show (detokenize v [] = []) from rfl]
        rw [eq_comm, List.drop_eq_nil_iff]
        omega
  | cons m rest ih =>
      intro lastPos rng hok hchain hhead
      have hmok := hok m (by simp)
      obtain ⟨hse, hel, hget⟩ := hmok
      have hhm : lastPos ≤ m.start := hhead m (by simp)
      have hrest_ok : ∀ m' ∈ rest, MatchOK v text m' := fun m' hm' => hok m' (by simp [hm'])
      have hrest_chain : List.Chain' (fun a b => a.endPos ≤ b.start) rest := hchain.tail
      have hrest_head : ∀ m' ∈ rest.head?, m.endPos ≤ m'.start := by
        intro m' hm'
        exact (List.chain'_cons'.mp hchain).1 m' hm'
      by_cases h : lastPos < m.start
      · have ihr := ih m.endPos
          (tokLoop (buildTrie v.tokens) strat ideal
            ((text.drop lastPos).take (m.start - lastPos)) rng).2
          hrest_ok hrest_chain hrest_head
        simp only [interleaveSegs, if_pos h, List.singleton_append, tokenizeSegs]
        rw [detokenize_append, detokenize_cons]
        have hd := tokLoopF_detok v strat ideal
          ((text.drop lastPos).take (m.start - lastPos)).length
          ((text.drop lastPos).take (m.start - lastPos)) rng (le_refl _)
          (covered_of_sublist hcov
            (fun ch hch => List.mem_of_mem_drop (List.mem_of_mem_take hch)))
        rw [show tokLoop (buildTrie v.tokens) strat ideal
            ((text.drop lastPos).take (m.start - lastPos)) rng
            = tokLoopF (buildTrie v.tokens) strat ideal
              ((text.drop lastPos).take (m.start - lastPos)).length
              ((text.drop lastPos).take (m.start - lastPos)) rng from rfl] at ihr ⊢
        rw [hd, hget, Option.getD_some, ihr]
        rw [show (text.drop m.start).take (m.endPos - m.start) ++ text.drop m.endPos
            = text.drop m.start from drop_take_append text hse]
        exact drop_take_append text hhm
      · have ihr := ih m.endPos rng hrest_ok hrest_chain hrest_head
        have heq : lastPos = m.start := by omega
        subst heq
        simp only [interleaveSegs, if_neg h, List.nil_append, tokenizeSegs]
        rw [detokenize_cons]
        rw [ihr, hget, Option.getD_some]
        exact drop_take_append text hse

/-- Special segments of the interleaving pass their token ids through. -/
theorem special_mem_interleave {len lastPos : Nat} {ms : List SpecialMatch}
    {a b tid : Nat} (h : Segment.special a b tid ∈ interleaveSegs len lastPos ms) :
    ∃ m ∈ ms, m.tokenId = tid := by
  have : ({ start := a, endPos := b, tokenId := tid } : SpecialMatch)
      ∈ (interleaveSegs len lastPos ms).filterMap Segment.specialData :=
    List.mem_filterMap.mpr ⟨Segment.special a b tid, h, rfl⟩
  rw [interleaveSegs_filterMap] at this
  exact ⟨_, this, rfl⟩

/-- Token-count comparison between the longest and the shortest strategy on
the same segment list: with full coverage the longest pass never emits more
tokens. -/
theorem tokenizeSegs_count_le (v : Vocab) (i1 i2 : Nat) {text : List Char}
    (hcov : Covered v.tokens text) :
    ∀ (segs : List Segment) (rng1 rng2 : Rng), rng1.Valid → rng2.Valid →
      (tokenizeSegs (buildTrie v.tokens) .longest i1 text segs rng1).1.length ≤
        (tokenizeSegs (buildTrie v.tokens) .shortest i2 text segs rng2).1.length := by
  intro segs
  induction segs with
  | nil => intro rng1 rng2 _ _; simp [tokenizeSegs]
  | cons s rest ih =>
      intro rng1 rng2 hv1 hv2
      cases s with
      | special a b id =>
          simp only [tokenizeSegs, List.length_cons]
          exact Nat.succ_le_succ (ih rng1 rng2 hv1 hv2)
      | normal a b =>
          simp only [tokenizeSegs, List.length_append]
          have hlg := tokLoopF_length_le (buildTrie v.tokens) .longest i1
            ((text.drop a).take (b - a)).length ((text.drop a).take (b - a)) rng1
          have hsh := tokLoopF_length_shortest v i2
            ((text.drop a).take (b - a)).length ((text.drop a).take (b - a))
            rng2 (le_refl _) hv2
            (covered_of_sublist hcov
              (fun ch hch => List.mem_of_mem_drop (List.mem_of_mem_take hch)))
          have hr := ih (tokLoop (buildTrie v.tokens) .longest i1
              ((text.drop a).take (b - a)) rng1).2
            (tokLoop (buildTrie v.tokens) .shortest i2
              ((text.drop a).take (b - a)) rng2).2
            (tokLoopF_valid _ _ _ _ _ hv1) (tokLoopF_valid _ _ _ _ _ hv2)
          simp only [tokLoop] at hlg hsh hr ⊢
          omega

/-- Every id emitted by the segment pass is a valid index, provided every
special segment's id is. -/
theorem tokenizeSegs_ids_lt (v : Vocab) (strat : Strategy) (ideal : Nat)
    (text : List Char) :
    ∀ (segs : List Segment) (rng : Rng) {id : Nat},
      (∀ a b tid, Segment.special a b tid ∈ segs → tid < v.tokens.length) →
      id ∈ (tokenizeSegs (buildTrie v.tokens) strat ideal text segs rng).1 →
      id < v.tokens.length := by
  intro segs
  induction segs with
  | nil => intro rng id _ h; simp [tokenizeSegs] at h
  | cons s rest ih =>
      intro rng id hsp h
      cases s with
      | special a b tid =>
          simp only [tokenizeSegs, List.mem_cons] at h
          rcases h with rfl | h
          · exact hsp a b id (by simp)
          · exact ih _ (fun a' b' tid' ht => hsp a' b' tid' (List.mem_cons_of_mem _ ht)) h
      | normal a b =>
          simp only [tokenizeSegs, List.mem_append] at h
          rcases h with h | h
          · exact tokLoopF_ids_lt v.tokens strat ideal _ _ _ h
          · exact ih _ (fun a' b' tid' ht => hsp a' b' tid' (List.mem_cons_of_mem _ ht)) h

/-! ### Whole-call lemmas for `tokenize` -/

/-- With no BOS/EOS injection, `tokenize` is the segment pass over the
segments built from the (possibly suppressed) special matches. -/
theorem tokenize_body (v : Vocab) (text : List Char) (opts : TokenizeOptions)
    (amb : Nat → ℚ) (hbos : opts.addBosToken = false) (heos : opts.addEosToken = false) :
    tokenize v text opts amb =
      (tokenizeSegs (buildTrie v.tokens) (opts.strategy.getD .random)
        (match opts.idealLength with
          | some n => if n = 0 then 4 else n
          | none => 4)
        text
        (buildSegments text.length
          (if opts.preserveSpecialTokens.getD true then
            findSpecialTokens (buildSpecialTokenMap v) text
          else []))
        (match opts.seed with
          | some s => Rng.seeded (s % 4294967296)
          | none => .ambient amb)).1 := by
  unfold tokenize
  rw [hbos, heos]
  simp

/-- A single whole-text normal segment reproduces the text. -/
theorem tokenizeSegs_whole (v : Vocab) (strat : Strategy) (ideal : Nat)
    {text : List Char} (hcov : Covered v.tokens text) (rng : Rng) :
    detokenize v (tokenizeSegs (buildTrie v.tokens) strat ideal text
      [.normal 0 text.length] rng).1 = text := by
  simp only [tokenizeSegs, List.drop_zero, Nat.sub_zero, List.take_length, List.append_nil]
  have hd := tokLoopF_detok v strat ideal text.length text rng (le_refl _) hcov
  simpa [tokLoop] using hd

/-- The special segments of the built segment list carry exactly the ids of
the reported matches. -/
theorem buildSegments_special_ids {len : Nat} {ms : List SpecialMatch}
    {a b tid : Nat} (h : Segment.special a b tid ∈ buildSegments len ms) :
    ∃ m ∈ ms, m.tokenId = tid := by
  cases ms with
  | nil => simp [buildSegments] at h
  | cons m rest => exact special_mem_interleave h

/-- Round-trip, fully assembled: if BOS/EOS injection is off, every
character of the text has a one-character token, and the special-token
matches found in the text are mutually non-overlapping (each one ends at or
before the next begins), then detokenization inverts tokenization — for
every strategy, seed and ambient stream. -/
theorem tokenize_round_trip (v : Vocab) (text : List Char) (opts : TokenizeOptions)
    (amb : Nat → ℚ) (hbos : opts.addBosToken = false) (heos : opts.addEosToken = false)
    (hcov : Covered v.tokens text)
    (hchain : List.Chain' (fun a b => a.endPos ≤ b.start)
      (findSpecialTokens (buildSpecialTokenMap v) text)) :
    detokenize v (tokenize v text opts amb) = text := by
  rw [tokenize_body v text opts amb hbos heos]
  by_cases hp : opts.preserveSpecialTokens.getD true
  · rw [if_pos hp]
    cases hsp : findSpecialTokens (buildSpecialTokenMap v) text with
    | nil => exact tokenizeSegs_whole v _ _ hcov _
    | cons m rest =>
        rw [show buildSegments text.length (m :: rest)
            = interleaveSegs text.length 0 (m :: rest) from rfl]
        have := tokenizeSegs_detok v (opts.strategy.getD .random)
          (match opts.idealLength with
            | some n => if n = 0 then 4 else n
            | none => 4)
          hcov (m :: rest) 0
          (match opts.seed with
            | some s => Rng.seeded (s % 4294967296)
            | none => .ambient amb)
          (fun m' hm' => findSpecialTokens_matchOK (v := v) (by rw [hsp]; exact hm'))
          (hsp ▸ hchain) (fun m' _ => Nat.zero_le _)
        simpa using this
  · rw [if_neg hp]
    exact tokenizeSegs_whole v _ _ hcov _

/-- Every id returned by `tokenize` indexes the vocabulary, given that the
BOS/EOS ids do when they are injected. -/
theorem tokenize_ids_lt (v : Vocab) (text : List Char) (opts : TokenizeOptions)
    (amb : Nat → ℚ)
    (hbos : ∀ i, v.bos_token_id = some i → i < v.tokens.length)
    (heos : ∀ i, v.eos_token_id = some i → i < v.tokens.length) :
    ∀ id ∈ tokenize v text opts amb, id < v.tokens.length := by
  intro id hid
  unfold tokenize at hid
  simp only [List.mem_append] at hid
  have hbody : ∀ {sp : List SpecialMatch},
      (∀ m ∈ sp, MatchOK v text m) →
      id ∈ (tokenizeSegs (buildTrie v.tokens) (opts.strategy.getD .random)
        (match opts.idealLength with
          | some n => if n = 0 then 4 else n
          | none => 4) text
        (buildSegments text.length sp)
        (match opts.seed with
          | some s => Rng.seeded (s % 4294967296)
          | none => .ambient amb)).1 → id < v.tokens.length := by
    intro sp hok hmem
    refine tokenizeSegs_ids_lt v _ _ text _ _ ?_ hmem
    intro a b tid ht
    obtain ⟨m, hm, rfl⟩ := buildSegments_special_ids ht
    obtain ⟨-, -, hget⟩ := hok m hm
    rw [List.get?_eq_some] at hget
    obtain ⟨hlt, -⟩ := hget
    exact hlt
  rcases hid with (hid | hid) | hid
  · revert hid
    cases hb : opts.addBosToken with
    | false => simp
    | true =>
        cases hbi : v.bos_token_id with
        | none => simp
        | some i =>
            intro hid
            simp at hid
            subst hid
            exact hbos _ hbi
  · revert hid
    by_cases hp : opts.preserveSpecialTokens.getD true
    · rw [if_pos hp]
      intro hid
      exact hbody (fun m hm => findSpecialTokens_matchOK hm) hid
    · rw [if_neg hp]
      intro hid
      exact hbody (fun m hm => by simp at hm) hid
  · revert hid
    cases he : opts.addEosToken with
    | false => simp
    | true =>
        cases hei : v.eos_token_id with
        | none => simp
        | some i =>
            intro hid
            simp at hid
            subst hid
            exact heos _ hei

/-- One unfolding step of the per-segment loop when candidates exist. -/
theorem tokLoopF_step (trie : Trie) (strat : Strategy) (ideal fuel : Nat) (c : Char)
    (rest : List Char) (rng : Rng) {c0 : Cand} {cands : List Cand}
    (haux : findValidTokensAux trie [] (c :: rest) = c0 :: cands) :
    tokLoopF trie strat ideal (fuel + 1) (c :: rest) rng =
      ((selectTok strat ideal c0 cands rng).1.id ::
        (tokLoopF trie strat ideal fuel
          ((c :: rest).drop (selectTok strat ideal c0 cands rng).1.length)
          (selectTok strat ideal c0 cands rng).2).1,
        (tokLoopF trie strat ideal fuel
          ((c :: rest).drop (selectTok strat ideal c0 cands rng).1.length)
          (selectTok strat ideal c0 cands rng).2).2) := by
  simp [tokLoopF, haux]

/-- The recoverable no-candidate branch: the loop skips one character and
continues, it never fails. -/
theorem tokLoop_skip (trie : Trie) (strat : Strategy) (ideal : Nat) (c : Char)
    (rest : List Char) (rng : Rng)
    (h : findValidTokensAux trie [] (c :: rest) = []) :
    tokLoop trie strat ideal (c :: rest) rng = tokLoop trie strat ideal rest rng := by
  simp only [tokLoop, List.length_cons]
  simp [tokLoopF, h]

/-- Seeded determinism: with a seed present, `tokenize` does not depend on
the ambient `Math.random` stream at all. -/
theorem tokenize_seeded_det (v : Vocab) (text : List Char) (opts : TokenizeOptions)
    (S : Nat) (amb1 amb2 : Nat → ℚ) (h : opts.seed = some S) :
    tokenize v text opts amb1 = tokenize v text opts amb2 := by
  unfold tokenize
  rw [h]

/-- Compression monotonicity, assembled: with every character of the text
covered by a one-character token and honest `Math.random` streams, the
longest-strategy pass never emits more tokens than the shortest one. -/
theorem compareCompression_mono (v : Vocab) (text : List Char) (amb1 amb2 : Nat → ℚ)
    (hcov : Covered v.tokens text) (hv1 : ValidStream amb1) (hv2 : ValidStream amb2) :
    (compareCompression v text amb1 amb2).mostCompressed.tokenCount ≤
      (compareCompression v text amb1 amb2).leastCompressed.tokenCount := by
  show (tokenize v text { strategy := some .longest } amb1).length ≤
    (tokenize v text { strategy := some .shortest } amb2).length
  rw [tokenize_body v text { strategy := some .longest } amb1 rfl rfl,
    tokenize_body v text { strategy := some .shortest } amb2 rfl rfl]
  exact tokenizeSegs_count_le v 4 4 hcov _ _ _ hv1 hv2

/-! ### Concrete computation lemmas for the strategy claims -/

theorem aux_ab : findValidTokensAux (buildTrie vocabStrat.tokens) [] ['a', 'b']
    = [{ id := 0, length := 1, text := ['a'] }, { id := 2, length := 2, text := ['a', 'b'] }] :=
  rfl

theorem aux_b : findValidTokensAux (buildTrie vocabStrat.tokens) [] ['b']
    = [{ id := 1, length := 1, text := ['b'] }] := rfl

theorem tokLoop_ab_longest {rng : Rng} (hv : rng.Valid) :
    (tokLoop (buildTrie vocabStrat.tokens) .longest 4 ['a', 'b'] rng).1 = [2] := by
  have hsel : (selectTok .longest 4 ⟨0, 1, ['a']⟩ [⟨2, 2, ['a', 'b']⟩] rng).1
      = ⟨2, 2, ['a', 'b']⟩ := by
    have hmem := selectTok_mem .longest 4 ⟨0, 1, ['a']⟩ [⟨2, 2, ['a', 'b']⟩] rng
    have hlen := selectTok_longest_len hv 4 ⟨0, 1, ['a']⟩ [⟨2, 2, ['a', 'b']⟩]
    have hmax : maxLenOf ⟨0, 1, ['a']⟩ [⟨2, 2, ['a', 'b']⟩] = 2 := rfl
    rw [hmax] at hlen
    rcases List.mem_cons.mp hmem with h | h
    · rw [h] at hlen; simp at hlen
    · simpa using h
  show (tokLoopF (buildTrie vocabStrat.tokens) .longest 4 (['a', 'b'] : List Char).length
      ['a', 'b'] rng).1 = [2]
  rw [show (['a', 'b'] : List Char).length = 1 + 1 from rfl]
  rw [tokLoopF_step _ _ _ _ _ _ _ aux_ab]
  rw [hsel]
  simp [tokLoopF]

theorem tokLoop_ab_shortest {rng : Rng} (hv : rng.Valid) :
    (tokLoop (buildTrie vocabStrat.tokens) .shortest 4 ['a', 'b'] rng).1 = [0, 1] := by
  have hsel1 : (selectTok .shortest 4 ⟨0, 1, ['a']⟩ [⟨2, 2, ['a', 'b']⟩] rng).1
      = ⟨0, 1, ['a']⟩ := by
    have hmem := selectTok_mem .shortest 4 ⟨0, 1, ['a']⟩ [⟨2, 2, ['a', 'b']⟩] rng
    have hlen := selectTok_shortest_len hv 4 ⟨0, 1, ['a']⟩ [⟨2, 2, ['a', 'b']⟩]
    have hmin : minLenOf ⟨0, 1, ['a']⟩ [⟨2, 2, ['a', 'b']⟩] = 1 := rfl
    rw [hmin] at hlen
    rcases List.mem_cons.mp hmem with h | h
    · exact h
    · simp at h; rw [h] at hlen; simp at hlen
  have hsel2 : ∀ rng2 : Rng, (selectTok .shortest 4 ⟨1, 1, ['b']⟩ [] rng2).1
      = ⟨1, 1, ['b']⟩ := by
    intro rng2
    have hmem := selectTok_mem .shortest 4 ⟨1, 1, ['b']⟩ [] rng2
    simpa using hmem
  show (tokLoopF (buildTrie vocabStrat.tokens) .shortest 4 (['a', 'b'] : List Char).length
      ['a', 'b'] rng).1 = [0, 1]
  rw [show (['a', 'b'] : List Char).length = 1 + 1 from rfl]
  rw [tokLoopF_step _ _ _ _ _ _ _ aux_ab]
  rw [hsel1]
  show (⟨0, 1, ['a']⟩ : Cand).id ::
    (tokLoopF (buildTrie vocabStrat.tokens) .shortest 4 (0 + 1) ['b'] _).1 = [0, 1]
  rw [tokLoopF_step _ _ _ _ _ _ _ aux_b]
  rw [hsel2]
  simp [tokLoopF]

/-- On `vocabStrat` the whole call reduces to the single-segment loop. -/
theorem tokenize_vocabStrat (strat : Strategy) (amb : Nat → ℚ) :
    tokenize vocabStrat ['a', 'b'] { strategy := some strat } amb
      = (tokLoop (buildTrie vocabStrat.tokens) strat 4 ['a', 'b'] (.ambient amb)).1 := by
  rw [tokenize_body vocabStrat ['a', 'b'] { strategy := some strat } amb rfl rfl]
  show (tokenizeSegs (buildTrie vocabStrat.tokens) strat 4 ['a', 'b']
      [.normal 0 2] (.ambient amb)).1 = _
  simp [tokenizeSegs, tokLoop]

theorem zeroStream_valid : ValidStream zeroStream := by
  intro n
  constructor <;> norm_num [zeroStream]

end Oke

/-! ## The claims -/

open Oke

/-- Claim C1, corrected.  The original claim (round-trip for every text over
individually-covered characters, with special-token substitution preserving
the text) fails when two special tokens match overlapping spans — see
`C1_round_trip_cex`.  Amended claim: with BOS/EOS injection off, if every
character of the text is present as a one-character token and the
special-token matches found in the text are mutually non-overlapping (each
ends at or before the next begins; in particular whenever
`preserveSpecialTokens` is disabled or at most one match exists), then
`detokenize (tokenize text opts) = text` for every strategy, every seed and
every ambient random stream. -/
theorem C1_round_trip (v : Vocab) (text : List Char) (opts : TokenizeOptions)
    (amb : Nat → ℚ) (hbos : opts.addBosToken = false) (heos : opts.addEosToken = false)
    (hcov : ∀ ch ∈ text, [ch] ∈ v.tokens)
    (hchain : List.Chain' (fun a b => a.endPos ≤ b.start)
      (findSpecialTokens (buildSpecialTokenMap v) text)) :
    detokenize v (tokenize v text opts amb) = text := by
  refine tokenize_round_trip v text opts amb hbos heos ?_ hchain
  intro ch hch
  exact List.mem_iff_get?.mp (hcov ch hch)

/-- Witness for `C1_round_trip`: the text `"a<s>b"` over `rtVocab` (special
token `"<s>"`), longest strategy, seed 42. -/
theorem C1_round_trip_witness :
    ({ strategy := some .longest, seed := some 42 } : TokenizeOptions).addBosToken = false ∧
    ['a'] ∈ rtVocab.tokens ∧ ['<'] ∈ rtVocab.tokens ∧ ['s'] ∈ rtVocab.tokens ∧
    ['>'] ∈ rtVocab.tokens ∧ ['b'] ∈ rtVocab.tokens ∧
    List.Chain' (fun a b => a.endPos ≤ b.start)
      (findSpecialTokens (buildSpecialTokenMap rtVocab) ['a', '<', 's', '>', 'b']) ∧
    detokenize rtVocab (tokenize rtVocab ['a', '<', 's', '>', 'b']
      { strategy := some .longest, seed := some 42 } zeroStream)
      = ['a', '<', 's', '>', 'b'] := by
  have hchain : List.Chain' (fun a b => a.endPos ≤ b.start)
      (findSpecialTokens (buildSpecialTokenMap rtVocab) ['a', '<', 's', '>', 'b']) := by
    rw [show findSpecialTokens (buildSpecialTokenMap rtVocab) ['a', '<', 's', '>', 'b']
        = [{ start := 1, endPos := 4, tokenId := 5 }] from by decide]
    simp
  refine ⟨rfl, by decide, by decide, by decide, by decide, by decide, hchain, ?_⟩
  exact C1_round_trip rtVocab ['a', '<', 's', '>', 'b']
    { strategy := some .longest, seed := some 42 } zeroStream rfl rfl (by decide) hchain

/-- Counterexample to claim C1 as stated: on `overlapVocab` every character
of `"abc"` is a single-character token, yet the two special tokens `"ab"`
and `"bc"` match overlapping spans, both are emitted, and detokenization
yields `"abbc" ≠ "abc"`. -/
theorem C1_round_trip_cex :
    ['a'] ∈ overlapVocab.tokens ∧ ['b'] ∈ overlapVocab.tokens ∧
    ['c'] ∈ overlapVocab.tokens ∧
    ({} : TokenizeOptions).addBosToken = false ∧
    ({} : TokenizeOptions).addEosToken = false ∧
    detokenize overlapVocab (tokenize overlapVocab ['a', 'b', 'c'] {} zeroStream)
      = ['a', 'b', 'b', 'c'] ∧
    detokenize overlapVocab (tokenize overlapVocab ['a', 'b', 'c'] {} zeroStream)
      ≠ ['a', 'b', 'c'] := by
  refine ⟨by decide, by decide, by decide, rfl, rfl, by decide, by decide⟩

/-- Claim C2, code bug.  The prefix option prefixes every top-level
production name, but the self-reference proxy is built from the bare rule
names, so cross-references stay unprefixed: compiling
`{ root: $ => $.word, word: "x" }` with prefix `"p"` yields
`p-root ::= word` — the reference `word` does not name any production of the
prefixed output, contradicting both the spec and the option's stated purpose
of concatenating independently compiled grammars.  This theorem evaluates
the compiler at that failing input. -/
theorem C2_prefix_eval :
    GrammarTP.grammar
      [("root", .fn fun s => s "word"), ("word", .plain (.str "x"))]
      { pfx := some "p" }
      = "p-root ::= word\np-word ::= \"x\"" := by decide

/-- Claim C3, corrected.  The original claim (earliest overlapping match
wins and the later match contributes no token, each character covered at
most once) is false — see `C3_overlap_cex`.  Amended claim: the segment
builder emits one special segment for **every** reported match, in sorted
order, whether or not it overlaps an earlier one, so the special segments of
the built segmentation are exactly the match list and a character can be
covered by more than one emitted segment. -/
theorem C3_all_matches_emitted (len : Nat) (ms : List SpecialMatch) :
    (buildSegments len ms).filterMap Segment.specialData = ms :=
  buildSegments_filterMap len ms

/-- Counterexample to claim C3 as stated: on `"abc"` with special tokens
`"ab"` (id 0) and `"bc"` (id 1) the match of `"bc"` overlaps the earlier
match of `"ab"`, yet it still contributes its token — the output is
`[0, 1]` — and detokenizing yields four characters for a three-character
input, so the character `b` is covered by two emitted segments. -/
theorem C3_overlap_cex :
    tokenize overlapVocab ['a', 'b', 'c'] {} zeroStream = [0, 1] ∧
    (1 : Nat) ∈ tokenize overlapVocab ['a', 'b', 'c'] {} zeroStream ∧
    (detokenize overlapVocab (tokenize overlapVocab ['a', 'b', 'c'] {} zeroStream)).length
      = 4 ∧
    (['a', 'b', 'c'] : List Char).length = 3 := by
  refine ⟨by decide, by decide, by decide, by decide⟩

/-- Claim C4, confirmed.  For a non-empty text and a non-degenerate
vocabulary — formalised as: every character of the text is present as a
one-character token, so that the vocabulary can actually tokenize the text —
and honest `Math.random` streams, the longest-strategy pass never produces
more tokens than the shortest-strategy pass:
`mostCompressed.tokenCount ≤ leastCompressed.tokenCount`. -/
theorem C4_compression_monotonicity (v : Vocab) (text : List Char)
    (amb1 amb2 : Nat → ℚ) (hne : text ≠ [])
    (hcov : ∀ ch ∈ text, [ch] ∈ v.tokens)
    (hv1 : ValidStream amb1) (hv2 : ValidStream amb2) :
    (compareCompression v text amb1 amb2).mostCompressed.tokenCount ≤
      (compareCompression v text amb1 amb2).leastCompressed.tokenCount := by
  refine compareCompression_mono v text amb1 amb2 ?_ hv1 hv2
  intro ch hch
  exact List.mem_iff_get?.mp (hcov ch hch)

/-- Witness for `C4_compression_monotonicity` on `vocabStrat` and `"ab"`. -/
theorem C4_compression_monotonicity_witness :
    (['a', 'b'] : List Char) ≠ [] ∧
    (compareCompression vocabStrat ['a', 'b'] zeroStream zeroStream).mostCompressed.tokenCount ≤
      (compareCompression vocabStrat ['a', 'b'] zeroStream zeroStream).leastCompressed.tokenCount :=
  ⟨by decide, C4_compression_monotonicity vocabStrat ['a', 'b'] zeroStream zeroStream
    (by decide) (by decide) zeroStream_valid zeroStream_valid⟩

/-- Claim C5, confirmed.  When a seed is supplied, the tokenization is a
function of the text and options alone: the ambient `Math.random` stream is
never consulted, so two calls with the same text and options (including the
seed) agree for any ambient streams — in particular two repeated calls
return identical token id sequences. -/
theorem C5_seeded_determinism (v : Vocab) (text : List Char) (opts : TokenizeOptions)
    (S : Nat) (amb1 amb2 : Nat → ℚ) (h : opts.seed = some S) :
    tokenize v text opts amb1 = tokenize v text opts amb2 :=
  tokenize_seeded_det v text opts S amb1 amb2 h

/-- Witness for `C5_seeded_determinism` with seed 42 on `vocabStrat`. -/
theorem C5_seeded_determinism_witness :
    ({ strategy := some .random, seed := some 42 } : TokenizeOptions).seed = some 42 ∧
    tokenize vocabStrat ['a', 'b'] { strategy := some .random, seed := some 42 } zeroStream
      = tokenize vocabStrat ['a', 'b'] { strategy := some .random, seed := some 42 }
          (fun _ => 1 / 2) :=
  ⟨rfl, C5_seeded_determinism vocabStrat ['a', 'b']
    { strategy := some .random, seed := some 42 } 42 zeroStream (fun _ => 1 / 2) rfl⟩

/-- Claim C6, confirmed.  `compressWithFactor` clamps the factor to
`[0, 1]`, interpolates the ideal length linearly between the observed
minimum and maximum token lengths of the bounded-prefix sample
(`sampleLenRange`, the first `min 1000 vocabSize` tokens) as
`round(minLen + factor * (maxLen - minLen))`, and delegates to `tokenize`
with the `ideal-length` strategy and that ideal length. -/
theorem C6_compressWithFactor_ideal (v : Vocab) (text : List Char) (cf : ℚ)
    (opts : TokenizeOptions) (amb : Nat → ℚ) :
    (0 : ℚ) ≤ max 0 (min 1 cf) ∧ max 0 (min 1 cf) ≤ 1 ∧
    (compressWithFactor v text cf opts amb).tokens =
      tokenize v text
        { opts with
          strategy := some .idealLength
          idealLength := some ((jsRound (((sampleLenRange v.tokens).1 : ℚ) +
            max 0 (min 1 cf) * (((sampleLenRange v.tokens).2 : ℚ) -
              ((sampleLenRange v.tokens).1 : ℚ)))).toNat) } amb :=
  ⟨le_max_left 0 _, max_le (by norm_num) (min_le_left 1 cf), rfl⟩

/-- Claim C7, confirmed.  (a) If the character at a valid start position is
itself a one-character token, `findValidTokens` returns at least one
candidate.  (b) If no candidate exists at a position the function returns
the empty list and the tokenization loop skips one character and continues —
it never fails. -/
theorem C7_valid_token_discovery :
    (∀ (v : Vocab) (text : List Char) (pos : Nat) (c : Char) (rest : List Char),
      text.drop pos = c :: rest → [c] ∈ v.tokens →
      findValidTokens (buildTrie v.tokens) text pos ≠ []) ∧
    (∀ (trie : Trie) (strat : Strategy) (ideal : Nat) (c : Char) (rest : List Char)
      (rng : Rng), findValidTokens trie (c :: rest) 0 = [] →
      tokLoop trie strat ideal (c :: rest) rng = tokLoop trie strat ideal rest rng) := by
  constructor
  · intro v text pos c rest hdrop hc
    rw [findValidTokens, hdrop]
    exact aux_ne_nil_of_covered (List.mem_iff_get?.mp hc)
  · intro trie strat ideal c rest rng h
    exact tokLoop_skip trie strat ideal c rest rng h

/-- Witness for `C7_valid_token_discovery`: part (a) at position 0 of
`"ab"` over `vocabStrat`; part (b) on the uncovered character `'q'`. -/
theorem C7_valid_token_discovery_witness :
    ((['a', 'b'] : List Char).drop 0 = 'a' :: ['b'] ∧
      ['a'] ∈ vocabStrat.tokens ∧
      findValidTokens (buildTrie vocabStrat.tokens) ['a', 'b'] 0 ≠ []) ∧
    (findValidTokens (buildTrie vocabStrat.tokens) ['q'] 0 = [] ∧
      tokLoop (buildTrie vocabStrat.tokens) .random 4 ['q'] (.ambient zeroStream)
        = tokLoop (buildTrie vocabStrat.tokens) .random 4 [] (.ambient zeroStream)) :=
  ⟨⟨rfl, by decide,
      C7_valid_token_discovery.1 vocabStrat ['a', 'b'] 0 'a' ['b'] rfl (by decide)⟩,
    ⟨by decide,
      C7_valid_token_discovery.2 (buildTrie vocabStrat.tokens) .random 4 'q' []
        (.ambient zeroStream) (by decide)⟩⟩

/-- Claim C8, confirmed.  On the vocabulary `{a, b, ab}` (ids 0, 1, 2) and
any valid ambient stream, `tokenize "ab" longest = [id(ab)]` and
`tokenize "ab" shortest = [id(a), id(b)]`; and in general, under a valid
random source, the longest (shortest) strategy always selects one of the
candidates whose matched length is the maximum (minimum) of the candidate
lengths at that position. -/
theorem C8_strategy_correctness :
    (∀ amb : Nat → ℚ, ValidStream amb →
      tokenize vocabStrat ['a', 'b'] { strategy := some .longest } amb = [2] ∧
      tokenize vocabStrat ['a', 'b'] { strategy := some .shortest } amb = [0, 1]) ∧
    (∀ (ideal : Nat) (c : Cand) (cs : List Cand) (rng : Rng), rng.Valid →
      ((selectTok .longest ideal c cs rng).1 ∈ c :: cs ∧
        (selectTok .longest ideal c cs rng).1.length = maxLenOf c cs) ∧
      ((selectTok .shortest ideal c cs rng).1 ∈ c :: cs ∧
        (selectTok .shortest ideal c cs rng).1.length = minLenOf c cs)) := by
  constructor
  · intro amb hv
    have hva : (Rng.ambient amb).Valid := hv
    constructor
    · rw [tokenize_vocabStrat .longest amb]
      exact tokLoop_ab_longest hva
    · rw [tokenize_vocabStrat .shortest amb]
      exact tokLoop_ab_shortest hva
  · intro ideal c cs rng hv
    exact ⟨⟨selectTok_mem _ _ _ _ _, selectTok_longest_len hv _ _ _⟩,
      ⟨selectTok_mem _ _ _ _ _, selectTok_shortest_len hv _ _ _⟩⟩

/-- Witness for `C8_strategy_correctness` at the zero stream. -/
theorem C8_strategy_correctness_witness :
    tokenize vocabStrat ['a', 'b'] { strategy := some .longest } zeroStream = [2] ∧
    tokenize vocabStrat ['a', 'b'] { strategy := some .shortest } zeroStream = [0, 1] :=
  ⟨(C8_strategy_correctness.1 zeroStream zeroStream_valid).1,
    (C8_strategy_correctness.1 zeroStream zeroStream_valid).2⟩

/-- Claim C9, corrected.  In the ts-pattern stringifier the claim holds:
`stringify(Repeat(r, m, n)) = stringify(r) ++ "{m,n}"` with no enclosing
parentheses and no collapsing for `m = n`.  But the Enum-version
stringifier, also cited by the claim, violates it — see `C9_repeat_cex` —
by parenthesizing the inner rule (and substituting `0`/`7` for falsy
bounds).  Amended claim: the ts-pattern stringifier renders
`stringify(r){m,n}` unparenthesized, while the Enum stringifier renders
`(stringify(r)){m,n}` with `0` for a falsy minimum and `7` for a falsy
maximum. -/
theorem C9_repeat_stringify (r : GrammarTP.Rule) (re : GrammarEnum.ERule) (m n : Int)
    (hmn : m ≤ n) :
    GrammarTP.stringify (.«repeat» r m n)
      = GrammarTP.stringify r ++ "\x7b" ++ toString m ++ "," ++ toString n ++ "\x7d" ∧
    GrammarEnum.stringify (.Repeat re (some m) (some n))
      = "(" ++ GrammarEnum.stringify re ++ ")\x7b"
        ++ (if m = 0 then "0" else toString m) ++ ","
        ++ (if n = 0 then "7" else toString n) ++ "\x7d" :=
  ⟨rfl, rfl⟩

/-- Witness for `C9_repeat_stringify` at `r = "a"`, `m = 2`, `n = 3`. -/
theorem C9_repeat_stringify_witness :
    (2 : Int) ≤ 3 ∧
    GrammarTP.stringify (.«repeat» (.str "a") 2 3)
      = GrammarTP.stringify (.str "a") ++ "\x7b" ++ toString (2 : Int) ++ ","
        ++ toString (3 : Int) ++ "\x7d" :=
  ⟨by norm_num, (C9_repeat_stringify (.str "a") (.str "a") 2 3 (by norm_num)).1⟩

/-- Counterexample to claim C9 as stated: the Enum-version stringifier
wraps the repeated rule in parentheses, so
`stringify(Repeat("a", 2, 3)) = "(\"a\"){2,3}"`, not `"\"a\"{2,3}"`. -/
theorem C9_repeat_cex :
    GrammarEnum.stringify (.Repeat (.str "a") (some 2) (some 3)) = "(\"a\")\x7b2,3\x7d" ∧
    GrammarEnum.stringify (.Repeat (.str "a") (some 2) (some 3))
      ≠ GrammarEnum.stringify (.str "a") ++ "\x7b" ++ toString (2 : Int) ++ ","
        ++ toString (3 : Int) ++ "\x7d" := by
  refine ⟨by decide, by decide⟩

/-- Claim C10, confirmed.  Whenever the optional BOS, EOS and special token
ids are valid indices of the token array, every id returned by `tokenize` is
a valid vocabulary index, so `getToken` is defined on it. -/
theorem C10_ids_in_range (v : Vocab) (text : List Char) (opts : TokenizeOptions)
    (amb : Nat → ℚ)
    (hbos : ∀ i, v.bos_token_id = some i → i < v.tokens.length)
    (heos : ∀ i, v.eos_token_id = some i → i < v.tokens.length)
    (hsp : ∀ ids, v.special_token_ids = some ids → ∀ i ∈ ids, i < v.tokens.length) :
    ∀ id ∈ tokenize v text opts amb, id < vocabSize v ∧ (getToken v id).isSome := by
  intro id hid
  have hlt := tokenize_ids_lt v text opts amb hbos heos id hid
  refine ⟨hlt, ?_⟩
  rw [show getToken v id = v.tokens.get? id from rfl]
  rw [List.get?_eq_get hlt]
  rfl

/-- Witness for `C10_ids_in_range` on `rtVocab` and the text `"a"`. -/
theorem C10_ids_in_range_witness :
    (0 : Nat) ∈ tokenize rtVocab ['a'] { seed := some 1 } zeroStream ∧
    0 < vocabSize rtVocab ∧ (getToken rtVocab (0 : Nat)).isSome := by
  have h := C10_ids_in_range rtVocab ['a'] { seed := some 1 } zeroStream
    (fun i h => Option.noConfusion h) (fun i h => Option.noConfusion h)
    (by
      intro ids hids i hi
      have h5 : ids = [5] :=
        (Option.some_inj.mp (show (some [5] : Option (List Nat)) = some ids from hids)).symm
      subst h5
      simp at hi
      subst hi
      decide)
    0 (by decide)
  exact ⟨by decide, h.1, h.2⟩
